import Mathlib

/-!
# Verification of `renum.py` (DJ-Suite repository)

A shallow embedding of the transactional bulk-rename engine `renum.py`
(Windows-only renumbering tool).  Strings are modelled as `List Char`;
the directory tree inspected/mutated by the tool is modelled explicitly.
Filesystem mutation (`os.replace`, `os.mkdir`, `os.rmdir`) is modelled as
explicit state passing; recursive directory walks use an explicit fuel
parameter bounding the recursion depth (the Python recursion terminates
on finite trees; every theorem either quantifies over all fuels or takes
a fuel-sufficiency hypothesis).

Modelling conventions:
* the character repertoire is the one closed under the operations the
  tool performs: Python's `str.casefold`/`str.upper` are modelled by
  ASCII case mapping (they agree with it on the ASCII repertoire), and
  `unicodedata.normalize("NFC", s)` is the identity on NFC-composed
  strings, which is the repertoire the model works in;
* `locale.strxfrm` (an opaque, locale-fixed, injective transform used
  only as a sort key) is modelled as the identity transform (the C
  locale); no claim below depends on the specific collation order;
* `uuid.uuid4().hex[:12]` randomness is modelled as an oracle function
  `tmpOr : Nat → List Char` giving the hex suffix of the i-th generated
  temporary name.
-/

namespace Renum

abbrev PyStr := List Char

/-- The whitespace characters of Python's `\\s` (`re.UNICODE`): ASCII
whitespace, the information separators, NEL, and the Unicode space
characters recognised by CPython's `re` module (`str.split` uses the
same set). -/
def pySpaceChars : List Char :=
  ['\u0009', '\u000a', '\u000b', '\u000c', '\u000d', '\u001c', '\u001d', '\u001e', '\u001f', '\u0020', '\u0085', '\u00a0', '\u1680', '\u2000', '\u2001', '\u2002', '\u2003', '\u2004', '\u2005', '\u2006', '\u2007', '\u2008', '\u2009', '\u200a', '\u2028', '\u2029', '\u202f', '\u205f', '\u3000']

/-- Python's `\\s` (`re.UNICODE`) as a character predicate. -/
def isPySpace (c : Char) : Bool :=
  pySpaceChars.contains c

/-- Python's `\d` on the modelled (ASCII) repertoire: the decimal digits. -/
def isPyDigit (c : Char) : Bool :=
  '0' ≤ c ∧ c ≤ '9'

/-- `str.casefold` restricted to the modelled repertoire (ASCII lowercase
mapping; full Unicode case folding coincides with it there). -/
def casefold (s : PyStr) : PyStr :=
  s.map Char.toLower

/-- `str.upper` restricted to the modelled repertoire. -/
def pyUpper (s : PyStr) : PyStr :=
  s.map Char.toUpper

/-- `locale.strxfrm`: opaque locale-fixed sort-key transform, modelled as
the identity transform (the C locale).  No claim depends on the specific
collation order, only on the transform being a fixed function. -/
def strxfrm (s : PyStr) : PyStr := s

/-- `sort_key` (renum.py line 108): `locale.strxfrm(name.casefold())`. -/
def sortKey (name : PyStr) : PyStr :=
  strxfrm (casefold name)

/-- Lexicographic `≤` on char lists (the order `list.sort` uses on the
string sort keys). -/
def keyLe : PyStr → PyStr → Bool
  | [], _ => true
  | _ :: _, [] => false
  | a :: as, b :: bs =>
    if a = b then keyLe as bs else decide (a < b)

/-- Insert while keeping elements with smaller-or-equal keys in front:
the building block of a stable sort (Python `list.sort` is stable). -/
def insertByKey (key : α → PyStr) (x : α) : List α → List α
  | [] => [x]
  | y :: ys =>
    if keyLe (key y) (key x) then y :: insertByKey key x ys
    else x :: y :: ys

/-- Stable sort by a string key, modelling Python's `list.sort(key=...)`. -/
def sortByKey (key : α → PyStr) (l : List α) : List α :=
  l.foldl (fun acc x => insertByKey key x acc) []

/-- `unicodedata.normalize("NFC", s)`: the identity on the modelled
repertoire of NFC-composed strings (renum.py line 122). -/
def nfc (s : PyStr) : PyStr := s

/-- Word splitter: `s.split()` semantics (split on whitespace runs,
dropping empty pieces); accumulator holds the current word reversed. -/
def wordsAux : List Char → List Char → List PyStr
  | [], acc => if acc.isEmpty then [] else [acc.reverse]
  | c :: cs, acc =>
    if isPySpace c then
      if acc.isEmpty then wordsAux cs [] else acc.reverse :: wordsAux cs []
    else wordsAux cs (c :: acc)

/-- `collapse_spaces` (renum.py line 118):
`re.sub(r"\s+", " ", s).strip()`, i.e. every whitespace run becomes one
space and outer whitespace is removed — equivalently the whitespace-run
words joined by single spaces. -/
def collapseSpaces (s : PyStr) : PyStr :=
  List.intercalate [' '] (wordsAux s [])

/-- `os.path.splitext` on a bare base name (no path separators): split at
the rightmost dot, unless every character before that dot is itself a dot
(CPython `genericpath._splitext`). -/
def splitext (p : PyStr) : PyStr × PyStr :=
  let dots := (List.range p.length).filter (fun i => p.get? i = some '.')
  match dots.getLast? with
  | none => (p, [])
  | some d =>
    if (List.range d).any (fun i => p.get? i ≠ some '.') then
      (p.take d, p.drop d)
    else (p, [])

/-- The separator characters accepted by the alternation
`(?:[.\-_]| {1,3})` of `PREFIX_RE` (a single space suffices for the
space branch; the quantifier only widens the match). -/
def isSepChar (c : Char) : Bool :=
  c = '.' ∨ c = '-' ∨ c = '_' ∨ c = ' '

/-- `PREFIX_RE.match` (renum.py line 115):
`re.compile(r"^\s*(\d+)\s*(?:[.\-_]| {1,3})\s*")` anchored at the start;
returns the remainder of the string after `m.end()` when the pattern
matches, `none` otherwise.

Derivation of the backtracking semantics: the leading `\s*` and `(\d+)`
are forced maximal (neither whitespace nor a digit can satisfy the next
atom).  Let `w` be the maximal whitespace run after the digits and `t'`
the rest.  The greedy middle `\s*` backtracks from `w`'s end: the first
position (scanning right-to-left through `w`, then its end) whose
character is `.`/`-`/`_` (only possible right after `w`, since those are
not whitespace) or a literal space (only inside `w`) wins.  Hence:
* if `t'` starts with `.`, `-` or `_`, the separator is that character
  and the trailing `\s*` then swallows the whitespace following it;
* otherwise, if `w` contains a literal space, the separator is the last
  such space and the trailing `\s*` swallows the rest of `w`, so the
  match ends exactly at `t'`;
* otherwise there is no match. -/
def sepScan (t : PyStr) : Option PyStr :=
  let w := t.takeWhile isPySpace
  let t' := t.dropWhile isPySpace
  match t' with
  | c :: r =>
    if c = '.' ∨ c = '-' ∨ c = '_' then some (r.dropWhile isPySpace)
    else if w.contains ' ' then some t'
    else none
  | [] => if w.contains ' ' then some [] else none

/-- `PREFIX_RE.match` continued: skip the maximal leading whitespace and
digit runs, then scan for the separator. -/
def prefixMatch (s : PyStr) : Option PyStr :=
  let s1 := s.dropWhile isPySpace
  let ds := s1.takeWhile isPyDigit
  if ds.isEmpty then none
  else sepScan (s1.drop ds.length)

/-- `strip_numeric_prefix` (renum.py lines 126-145): remove a leading
numeric prefix plus separator; for files only the stem is examined and
the extension is returned untouched. -/
def stripNumericPrefix (fullname : PyStr) (isFile : Bool) : PyStr × PyStr :=
  if isFile then
    let (stem, ext) := splitext fullname
    let stem1 := match prefixMatch stem with
      | some rest => rest
      | none => stem
    (nfc (collapseSpaces stem1), ext)
  else
    let name1 := match prefixMatch fullname with
      | some rest => rest
      | none => fullname
    (nfc (collapseSpaces name1), [])

/-- Decimal digits of a natural number (most significant first). -/
def natDigits (n : Nat) : PyStr :=
  Nat.toDigits 10 n

/-- Python `f"{number:0{width}d}"`: zero-padded decimal of an integer;
a negative number keeps its sign in front of the padding; a number whose
representation exceeds `width` is not truncated. -/
def pyZeroPad (n : Int) (width : Nat) : PyStr :=
  if n < 0 then
    let ds := natDigits n.natAbs
    '-' :: (List.replicate (width - 1 - ds.length) '0' ++ ds)
  else
    let ds := natDigits n.natAbs
    List.replicate (width - ds.length) '0' ++ ds

/-- `build_target_name` (renum.py lines 148-151):
`"<num> <rest>"` (or the bare number when `rest` is empty) plus the
extension. -/
def buildTargetName (number : Int) (width : Nat) (rest : PyStr)
    (ext : PyStr := []) : PyStr :=
  let num := pyZeroPad number width
  let base := if rest.isEmpty then num else num ++ ' ' :: rest
  base ++ ext

/-- `INVALID_CHARS` (renum.py line 77). -/
def isInvalidChar (c : Char) : Bool :=
  c = '<' ∨ c = '>' ∨ c = ':' ∨ c = '"' ∨ c = '/' ∨ c = '\\' ∨
  c = '|' ∨ c = '?' ∨ c = '*'

/-- `RESERVED_BASENAMES` (renum.py lines 78-82). -/
def reservedBasenames : List PyStr :=
  [['C','O','N'], ['P','R','N'], ['A','U','X'], ['N','U','L']] ++
  (List.range 9).map (fun i => ['C','O','M'] ++ natDigits (i + 1)) ++
  (List.range 9).map (fun i => ['L','P','T'] ++ natDigits (i + 1))

/-- `is_valid_windows_name` (renum.py lines 85-93). -/
def isValidWindowsName (filename : PyStr) : Bool :=
  if filename.isEmpty ∨ filename.getLast? = some ' ' ∨
      filename.getLast? = some '.' then false
  else if filename.any isInvalidChar then false
  else
    let base := (splitext filename).1
    ¬ reservedBasenames.contains (pyUpper base)

/-- `ext_matches` (renum.py lines 172-175): with no filter everything
matches, otherwise the lower-cased extension must be in the allow-list. -/
def extMatches (filename : PyStr) (flt : Option (List PyStr)) : Bool :=
  match flt with
  | none => true
  | some l => l.contains (casefold (splitext filename).2)

/-- `LOCK_DIR_NAME` (renum.py line 49). -/
def lockDirName : PyStr :=
  ['.','r','e','n','u','m','.','l','o','c','k']

/-- One `os.DirEntry` of a directory listing: base name, kind
(`is_file` / `is_dir` with `follow_symlinks=False`), symlink flag and
the Windows hidden-or-system attribute. -/
structure Ent where
  name : PyStr
  isFile : Bool
  symlink : Bool
  hidden : Bool
deriving DecidableEq, Repr

/-- `iter_visible_dirs` (renum.py lines 182-190): visible, non-symlink
directories other than the lock marker, sorted by `sort_key`. -/
def iterVisibleDirs (listing : List Ent) : List Ent :=
  sortByKey (fun e => sortKey e.name)
    (listing.filter fun e =>
      ¬ e.isFile ∧ ¬ e.symlink ∧ e.name ≠ lockDirName ∧ ¬ e.hidden)

/-- `iter_visible_files` (renum.py lines 193-201): visible, non-symlink
files passing the extension filter, sorted by `sort_key`. -/
def iterVisibleFiles (listing : List Ent) (flt : Option (List PyStr)) :
    List Ent :=
  sortByKey (fun e => sortKey e.name)
    (listing.filter fun e =>
      e.isFile ∧ ¬ e.symlink ∧ extMatches e.name flt ∧ ¬ e.hidden)

/-- The casefolded keys of the `existing` dict built by
`check_conflicts_dir` (renum.py lines 236-245): every child that is not
the lock marker, not a symlink and not hidden/system.  Only membership
in the key set is ever queried. -/
def conflictExisting (listing : List Ent) : List PyStr :=
  (listing.filter fun e =>
      e.name ≠ lockDirName ∧ ¬ e.symlink ∧ ¬ e.hidden).map
    (fun e => casefold e.name)

/-- First loop of `check_conflicts_dir` (renum.py lines 225-234):
Windows-name validation and duplicate-target detection via the `seen`
dict (keyed by the casefolded target). -/
def checkSeenLoop : List (PyStr × PyStr) → List PyStr → Except Unit Unit
  | [], _ => .ok ()
  | (_, new) :: rest, seen =>
    if ¬ isValidWindowsName new then .error ()
    else if seen.contains (casefold new) then .error ()
    else checkSeenLoop rest (casefold new :: seen)

/-- Second loop of `check_conflicts_dir` (renum.py lines 247-252): a
target whose casefold is an existing key and differs from the item's own
source casefold is a conflict. -/
def checkExistingLoop (existingCfs : List PyStr) :
    List (PyStr × PyStr) → Except Unit Unit
  | [] => .ok ()
  | (old, new) :: rest =>
    if existingCfs.contains (casefold new) ∧ casefold new ≠ casefold old then
      .error ()
    else checkExistingLoop existingCfs rest

/-- `check_conflicts_dir` (renum.py lines 212-252).  `planned` is the
`alt_basename -> neu_basename` dict in insertion order; errors are
collapsed to `Unit` (the message text is out of scope). -/
def checkConflictsDir (listing : List Ent)
    (planned : List (PyStr × PyStr)) : Except Unit Unit :=
  if planned.isEmpty then .ok ()
  else
    match checkSeenLoop planned [] with
    | .error e => .error e
    | .ok () => checkExistingLoop (conflictExisting listing) planned

/-- `DirPlan` (renum.py lines 299-310); absolute paths `orig_abs` /
`parent_abs` are represented by node identifiers. -/
structure DirPlanM where
  origId : Nat
  parentId : Nat
  oldBase : PyStr
  rest : PyStr
  finalBase : PyStr
  tmpBase : PyStr
deriving DecidableEq, Repr

/-- `FilePlan` (renum.py lines 313-325); the files mode works in a single
flat directory, identified implicitly. -/
structure FilePlanM where
  oldBase : PyStr
  rest : PyStr
  ext : PyStr
  finalBase : PyStr
  tmpBase : PyStr
deriving DecidableEq, Repr

/-- `f"{base}.renum_tmp_{uuid.uuid4().hex[:12]}"` with the random hex
suffix supplied by the oracle. -/
def tmpName (base : PyStr) (hex : PyStr) : PyStr :=
  base ++ ".renum_tmp_".toList ++ hex

/-- The target name `plan_folders` computes for a directory entry
(renum.py lines 359-361): strip the numeric prefix, build
`"<num> <rest>"`, then normalise once more. -/
def foldersTarget (width : Nat) (number : Int) (base : PyStr) : PyStr :=
  nfc (collapseSpaces
    (buildTargetName number width (stripNumericPrefix base false).1))

/-- The target name `plan_files` computes for a file entry
(renum.py lines 405-407). -/
def filesTarget (width : Nat) (number : Int) (base : PyStr) : PyStr :=
  nfc (collapseSpaces
    (buildTargetName number width (stripNumericPrefix base true).1
      (stripNumericPrefix base true).2))

/-- The planning loop of `plan_folders` (renum.py lines 356-379): walk
the scanned items carrying the running `number` (incremented by `step`
for every item, renamed or not) and the count of temporary names drawn
so far; skip unchanged items, reject invalid target names. -/
def planFoldersLoop (width : Nat) (step : Int) (tmpOr : Nat → PyStr) :
    List (Nat × Nat × PyStr) → Int → Nat → Except Unit (List DirPlanM)
  | [], _, _ => .ok []
  | (pid, nid, base) :: rest, number, ti =>
    let fb := foldersTarget width number base
    if fb = base then planFoldersLoop width step tmpOr rest (number + step) ti
    else if ¬ isValidWindowsName fb then .error ()
    else
      match planFoldersLoop width step tmpOr rest (number + step) (ti + 1) with
      | .error e => .error e
      | .ok ps =>
        .ok ({ origId := nid, parentId := pid, oldBase := base,
               rest := (stripNumericPrefix base false).1,
               finalBase := fb, tmpBase := tmpName base (tmpOr ti) } :: ps)

/-- Insert-or-update of a Python dict entry: an existing key keeps its
position and gets the new value, a new key is appended. -/
def assocUpsert (k : α) (v : β) [DecidableEq α] :
    List (α × β) → List (α × β)
  | [] => [(k, v)]
  | (k', v') :: rest =>
    if k' = k then (k, v) :: rest else (k', v') :: assocUpsert k v rest

/-- The parents of `per_parent` (renum.py lines 382-384) in first-insertion
order. -/
def parentsInOrder (plans : List DirPlanM) : List Nat :=
  plans.foldl
    (fun acc dp => if acc.contains dp.parentId then acc else acc ++ [dp.parentId])
    []

/-- The `old_base -> final_base` mapping `per_parent[parent]`
(renum.py lines 382-384). -/
def perParentMapping (plans : List DirPlanM) (pid : Nat) :
    List (PyStr × PyStr) :=
  plans.foldl
    (fun m dp => if dp.parentId = pid then assocUpsert dp.oldBase dp.finalBase m
                 else m)
    []

/-- The conflict-check loop of `plan_folders` (renum.py lines 386-387),
given the listing of each parent directory. -/
def checkAllParents (listingOf : Nat → List Ent) (plans : List DirPlanM) :
    List Nat → Except Unit Unit
  | [] => .ok ()
  | pid :: rest =>
    match checkConflictsDir (listingOf pid) (perParentMapping plans pid) with
    | .error e => .error e
    | .ok () => checkAllParents listingOf plans rest

/-- `plan_folders` (renum.py lines 347-389) over an abstract scan result:
`items` is the `(parent, node, base)` list produced by the scanner
(flat children or recursive preorder), `listingOf` the read-only listing
of each parent directory used by the conflict check.  Returns the plans
and the `checked` counter. -/
def planFolders (listingOf : Nat → List Ent)
    (items : List (Nat × Nat × PyStr)) (start step : Int) (width : Nat)
    (tmpOr : Nat → PyStr) : Except Unit (List DirPlanM × Nat) :=
  match planFoldersLoop width step tmpOr items start 0 with
  | .error e => .error e
  | .ok plans =>
    match checkAllParents listingOf plans (parentsInOrder plans) with
    | .error e => .error e
    | .ok () => .ok (plans, items.length)

/-- The planning loop of `plan_files` (renum.py lines 403-426). -/
def planFilesLoop (width : Nat) (step : Int) (tmpOr : Nat → PyStr) :
    List PyStr → Int → Nat → Except Unit (List FilePlanM)
  | [], _, _ => .ok []
  | base :: rest, number, ti =>
    let fb := filesTarget width number base
    if fb = base then planFilesLoop width step tmpOr rest (number + step) ti
    else if ¬ isValidWindowsName fb then .error ()
    else
      match planFilesLoop width step tmpOr rest (number + step) (ti + 1) with
      | .error e => .error e
      | .ok ps =>
        .ok ({ oldBase := base, rest := (stripNumericPrefix base true).1,
               ext := (stripNumericPrefix base true).2, finalBase := fb,
               tmpBase := tmpName base (tmpOr ti) } :: ps)

/-- `plan_files` (renum.py lines 396-431): scan the flat directory,
number the visible files, then conflict-check the whole batch against
the same listing. -/
def planFiles (listing : List Ent) (start step : Int) (width : Nat)
    (flt : Option (List PyStr)) (tmpOr : Nat → PyStr) :
    Except Unit (List FilePlanM × Nat) :=
  let files := (iterVisibleFiles listing flt).map (·.name)
  match planFilesLoop width step tmpOr files start 0 with
  | .error e => .error e
  | .ok plans =>
    let mapping := plans.foldl
      (fun m fp => assocUpsert fp.oldBase fp.finalBase m) []
    match checkConflictsDir listing mapping with
    | .error e => .error e
    | .ok () => .ok (plans, files.length)

/-!
## Files-mode executor

The flat target directory is a list of entries (`os.scandir` order).
`os.replace` on Windows: fails (`OSError`) when the source is missing or
when the destination exists and the pair is not file-onto-file; a
file-onto-file replace silently overwrites the destination.  Attributes
(the hidden flag) travel with the renamed entry.  Failure injection: the
executor carries a countdown and the rename call it reaches at zero
raises instead of running, exactly like an injected mid-transaction
I/O error. -/

/-- `os.replace(src, dst)` in one directory (rename semantics above). -/
def osReplaceF (src dst : PyStr) (st : List Ent) : Option (List Ent) :=
  if src = dst then some st
  else
    match st.find? (fun e => e.name = src) with
    | none => none
    | some eSrc =>
      match st.find? (fun e => e.name = dst) with
      | some eDst =>
        if eSrc.isFile ∧ eDst.isFile then
          some ((st.filter (fun e => e.name ≠ dst)).map
            (fun e => if e.name = src then { e with name := dst } else e))
        else none
      | none =>
        some (st.map (fun e => if e.name = src then { e with name := dst } else e))

/-- `stage_files` (renum.py lines 533-540) with failure injection: rename
each plan's source to its temporary name; a raise (injected, or a failed
`os.replace`) aborts with the state at that moment. -/
def stageFilesF : List FilePlanM → List Ent → Nat →
    Except (List Ent) (List Ent × Nat)
  | [], st, ctr => .ok (st, ctr)
  | fp :: rest, st, ctr =>
    if ctr = 0 then .error st
    else
      match osReplaceF fp.oldBase fp.tmpBase st with
      | none => .error st
      | some st' => stageFilesF rest st' (ctr - 1)

/-- The iteration of `commit_files` (renum.py lines 543-555) over the
materialised `entries` snapshot, renaming entries whose name is a staged
temporary name; with failure injection. -/
def commitFilesLoop (tmpToFinal : List (PyStr × PyStr)) :
    List PyStr → List Ent → Nat → Except (List Ent) (List Ent × Nat)
  | [], st, ctr => .ok (st, ctr)
  | n :: rest, st, ctr =>
    match tmpToFinal.lookup n with
    | none => commitFilesLoop tmpToFinal rest st ctr
    | some fin =>
      if ctr = 0 then .error st
      else
        match osReplaceF n fin st with
        | none => .error st
        | some st' => commitFilesLoop tmpToFinal rest st' (ctr - 1)

/-- `commit_files` (renum.py lines 543-555): snapshot the non-symlink
files, then rename every temporary name to its final name. -/
def commitFilesF (fplans : List FilePlanM) (st : List Ent) (ctr : Nat) :
    Except (List Ent) (List Ent × Nat) :=
  let tmpToFinal := fplans.foldl
    (fun m fp => assocUpsert fp.tmpBase fp.finalBase m) []
  let snapshot := (st.filter (fun e => e.isFile ∧ ¬ e.symlink)).map (·.name)
  commitFilesLoop tmpToFinal snapshot st ctr

/-- One rollback pass of `rollback_files` (renum.py lines 558-592):
rename every non-symlink file whose name is a key of `mapping`; an
`OSError` of an individual restore is caught and the pass continues. -/
def rollbackPassF (mapping : List (PyStr × PyStr)) :
    List PyStr → List Ent → List Ent
  | [], st => st
  | n :: rest, st =>
    match mapping.lookup n with
    | none => rollbackPassF mapping rest st
    | some dst =>
      match osReplaceF n dst st with
      | none => rollbackPassF mapping rest st
      | some st' => rollbackPassF mapping rest st'

/-- `rollback_files` (renum.py lines 558-592): first pass final → tmp,
second pass tmp → old, each over a fresh snapshot of the non-symlink
files. -/
def rollbackFilesF (fplans : List FilePlanM) (st : List Ent) : List Ent :=
  if fplans.isEmpty then st
  else
    let finalToTmp := fplans.foldl
      (fun m fp => assocUpsert fp.finalBase fp.tmpBase m) []
    let tmpToOld := fplans.foldl
      (fun m fp => assocUpsert fp.tmpBase fp.oldBase m) []
    let snap1 := (st.filter (fun e => e.isFile ∧ ¬ e.symlink)).map (·.name)
    let st1 := rollbackPassF finalToTmp snap1 st
    let snap2 := (st1.filter (fun e => e.isFile ∧ ¬ e.symlink)).map (·.name)
    rollbackPassF tmpToOld snap2 st1

/-- The lock marker directory created by `acquire_lock`
(renum.py lines 259-281), marked hidden. -/
def lockEnt : Ent :=
  { name := lockDirName, isFile := false, symlink := false, hidden := true }

/-- `run_files` (renum.py lines 624-647) in `--go` mode with an injected
failure before the `failAt`-th rename call of the staging/commit
sequence: acquire the lock, plan, stage+commit, roll back on any
exception; the lock is released on every path; returns the directory
state and the exit code. -/
def runFilesGo (st : List Ent) (start step : Int) (width : Nat)
    (flt : Option (List PyStr)) (tmpOr : Nat → PyStr) (failAt : Nat) :
    List Ent × Int :=
  let st1 := st ++ [lockEnt]
  let unlock := fun (s : List Ent) => s.filter (fun e => e.name ≠ lockDirName)
  match planFiles st1 start step width flt tmpOr with
  | .error _ => (unlock st1, 1)
  | .ok (fplans, _checked) =>
    match stageFilesF fplans st1 failAt with
    | .error stE => (unlock (rollbackFilesF fplans stE), 1)
    | .ok (st2, ctr) =>
      match commitFilesF fplans st2 ctr with
      | .error stE => (unlock (rollbackFilesF fplans stE), 1)
      | .ok (st3, _) => (unlock st3, 0)

/-!
## Helper lemmas
-/

theorem isPySpace_iff_mem {c : Char} :
    isPySpace c = true ↔ c ∈ pySpaceChars := by
  simp [isPySpace, List.elem_iff]

theorem not_space_of_digit {c : Char} (h : isPyDigit c = true) :
    isPySpace c = false := by
  rcases hb : isPySpace c with _ | _
  · rfl
  · exfalso
    have hm := isPySpace_iff_mem.mp hb
    simp only [pySpaceChars, List.mem_cons, List.not_mem_nil, or_false] at hm
    rcases hm with rfl | rfl | rfl | rfl | rfl | rfl | rfl | rfl | rfl | rfl |
      rfl | rfl | rfl | rfl | rfl | rfl | rfl | rfl | rfl | rfl | rfl | rfl |
      rfl | rfl | rfl | rfl | rfl | rfl | rfl <;> exact absurd h (by decide)

theorem takeWhile_of_all_append {p : Char → Bool} {w t : PyStr}
    (hw : ∀ x ∈ w, p x = true)
    (ht : ∀ c, t.head? = some c → p c = false) :
    (w ++ t).takeWhile p = w ∧ (w ++ t).dropWhile p = t := by
  induction w with
  | nil =>
    cases t with
    | nil => simp
    | cons c r =>
      have := ht c rfl
      simp [List.takeWhile_cons, List.dropWhile_cons, this]
  | cons a w' ih =>
    have ha := hw a (List.mem_cons_self a w')
    have ih' := ih (fun x hx => hw x (List.mem_cons_of_mem a hx))
    simp [List.takeWhile_cons, List.dropWhile_cons, ha, ih'.1, ih'.2]

theorem mem_takeWhile_of_prefix {p : Char → Bool} {w0 r : PyStr} {a : Char}
    (hw : ∀ x ∈ w0, p x = true) (ha : p a = true) :
    a ∈ (w0 ++ a :: r).takeWhile p := by
  induction w0 with
  | nil => simp [List.takeWhile_cons, ha]
  | cons x w' ih =>
    have hx := hw x (List.mem_cons_self x w')
    simp only [List.cons_append, List.takeWhile_cons, hx, if_true]
    exact List.mem_cons_of_mem x (ih fun y hy => hw y (List.mem_cons_of_mem x hy))

/-- The separator condition the amended claim C8 states: after the digit
run the name continues with an (optional) whitespace run followed by one
of `.`, `-`, `_` or a space character. -/
def SepFollows (t : PyStr) : Prop :=
  ∃ w c r, t = w ++ c :: r ∧ (∀ x ∈ w, isPySpace x = true) ∧ isSepChar c = true

theorem isSepChar_iff {c : Char} :
    isSepChar c = true ↔ c = '.' ∨ c = '-' ∨ c = '_' ∨ c = ' ' := by
  simp [isSepChar]

theorem contains_space_iff {w : PyStr} :
    w.contains ' ' = true ↔ ' ' ∈ w :=
  List.elem_iff

theorem sepFollows_of_space_mem {t : PyStr}
    (hmem : ' ' ∈ t.takeWhile isPySpace) : SepFollows t := by
  obtain ⟨w1, w2, hw⟩ := List.append_of_mem hmem
  refine ⟨w1, ' ', w2 ++ t.dropWhile isPySpace, ?_, ?_, by decide⟩
  · conv_lhs => rw [← List.takeWhile_append_dropWhile isPySpace t]
    rw [hw]
    simp
  · intro x hx
    exact List.mem_takeWhile_imp (p := isPySpace) (l := t)
      (by rw [hw]; exact List.mem_append_left _ hx)

theorem sepScan_isSome_iff {t : PyStr} :
    (sepScan t).isSome ↔ SepFollows t := by
  constructor
  · intro h
    rcases hd : t.dropWhile isPySpace with _ | ⟨c, r⟩
    · rw [sepScan] at h
      simp only [hd] at h
      simp only [contains_space_iff] at h
      rcases hmem : decide (' ' ∈ t.takeWhile isPySpace) with _ | _
      · rw [if_neg (by simpa using hmem)] at h
        simp at h
      · exact sepFollows_of_space_mem (by simpa using hmem)
    · rw [sepScan] at h
      simp only [hd] at h
      by_cases hdot : c = '.' ∨ c = '-' ∨ c = '_'
      · refine ⟨t.takeWhile isPySpace, c, r, ?_, ?_, ?_⟩
        · conv_lhs => rw [← List.takeWhile_append_dropWhile isPySpace t]
          rw [hd]
        · intro x hx
          exact List.mem_takeWhile_imp hx
        · rcases hdot with rfl | rfl | rfl <;> decide
      · rw [if_neg hdot] at h
        simp only [contains_space_iff] at h
        rcases hmem : decide (' ' ∈ t.takeWhile isPySpace) with _ | _
        · rw [if_neg (by simpa using hmem)] at h
          simp at h
        · exact sepFollows_of_space_mem (by simpa using hmem)
  · rintro ⟨w0, c, r, rfl, hw0, hc⟩
    rcases isSepChar_iff.mp hc with rfl | rfl | rfl | rfl
    · have hsp := takeWhile_of_all_append (p := isPySpace) (t := '.' :: r) hw0
        (fun x hx => by rw [List.head?_cons] at hx; cases hx; decide)
      rw [sepScan]
      simp only [hsp.2]
      simp
    · have hsp := takeWhile_of_all_append (p := isPySpace) (t := '-' :: r) hw0
        (fun x hx => by rw [List.head?_cons] at hx; cases hx; decide)
      rw [sepScan]
      simp only [hsp.2]
      simp
    · have hsp := takeWhile_of_all_append (p := isPySpace) (t := '_' :: r) hw0
        (fun x hx => by rw [List.head?_cons] at hx; cases hx; decide)
      rw [sepScan]
      simp only [hsp.2]
      simp
    · have hmem : ' ' ∈ (w0 ++ ' ' :: r).takeWhile isPySpace :=
        mem_takeWhile_of_prefix hw0 (by decide)
      rw [sepScan]
      rcases hd : (w0 ++ ' ' :: r).dropWhile isPySpace with _ | ⟨c', r'⟩
      · simp only [hd]
        simp [contains_space_iff, hmem]
      · simp only [hd]
        by_cases hdot : c' = '.' ∨ c' = '-' ∨ c' = '_' <;>
          simp [contains_space_iff, hmem, hdot]

theorem prefixMatch_append {ds t : PyStr} (hds : ds ≠ [])
    (hdig : ∀ c ∈ ds, isPyDigit c = true)
    (ht : ∀ c, t.head? = some c → isPyDigit c = false) :
    prefixMatch (ds ++ t) = sepScan t := by
  obtain ⟨d, ds₁, rfl⟩ : ∃ d ds₁, ds = d :: ds₁ := by
    cases ds with
    | nil => exact absurd rfl hds
    | cons d ds₁ => exact ⟨d, ds₁, rfl⟩
  have hdns : isPySpace d = false :=
    not_space_of_digit (hdig d (List.mem_cons_self d ds₁))
  have hdrop : ((d :: ds₁) ++ t).dropWhile isPySpace = (d :: ds₁) ++ t := by
    simp [List.dropWhile_cons, hdns]
  have htake : ((d :: ds₁) ++ t).takeWhile isPyDigit = d :: ds₁ :=
    (takeWhile_of_all_append hdig ht).1
  rw [prefixMatch]
  simp only [hdrop, htake, List.isEmpty_cons, List.length_cons]
  have : (d :: ds₁).length = List.length (d :: ds₁) := rfl
  rw [show ((d :: ds₁) ++ t).drop (ds₁.length + 1) = t from
    List.drop_left (d :: ds₁) t]
  simp

/-!
## Claim C8
-/

/-- **C8 — counterexample.**  The claim states that a name whose leading
digits are followed by four or more spaces and nothing else keeps its
digits.  On `"12␣␣␣␣"` (two digits, four spaces) the code strips the
digits: the regex backtracks its middle `\s*` to three spaces and takes
the fourth as the ` {1,3}` separator, so `strip_numeric_prefix` returns
an empty rest name instead of keeping `"12"`. -/
theorem claim_C8_counterexample :
    stripNumericPrefix ['1', '2', ' ', ' ', ' ', ' '] false = ([], []) := by
  rfl

/-- **C8 — amended claim.**  Prefix stripping removes the leading digit
run exactly when the digits are followed by an optional whitespace run
and then one of `.`, `-`, `_` or a *space* character (so four or more
trailing spaces do strip, and only a digit run followed directly — after
optional non-space whitespace — by some other character, or by nothing,
keeps its digits); for files only the stem is examined and the extension
is untouched. -/
theorem claim_C8_prefix_strip :
    (∀ ds t : PyStr, ds ≠ [] → (∀ c ∈ ds, isPyDigit c = true) →
      (∀ c, t.head? = some c → isPyDigit c = false) →
      ((prefixMatch (ds ++ t)).isSome ↔ SepFollows t)) ∧
    (∀ full : PyStr,
      stripNumericPrefix full true =
        ((stripNumericPrefix (splitext full).1 false).1, (splitext full).2)) := by
  constructor
  · intro ds t hds hdig ht
    rw [prefixMatch_append hds hdig ht]
    exact sepScan_isSome_iff
  · intro full
    rcases h : splitext full with ⟨stem, ext⟩
    simp [stripNumericPrefix, h]

/-- **C8 — witness.**  At `ds = "12"`, `t = "␣␣␣␣"` the hypotheses hold
and the characterization applies: the prefix matches (digits stripped)
because four spaces satisfy the separator condition. -/
theorem claim_C8_prefix_strip_witness :
    (prefixMatch (['1', '2'] ++ [' ', ' ', ' ', ' '])).isSome = true :=
  (claim_C8_prefix_strip.1 ['1', '2'] [' ', ' ', ' ', ' ']
      (by decide) (by decide) (by decide)).mpr
    ⟨[' ', ' ', ' '], ' ', [], by decide, by decide, by decide⟩

/-!
## Claim C3
-/

theorem checkSeenLoop_ok_iff :
    ∀ (l : List (PyStr × PyStr)) (seen : List PyStr),
      checkSeenLoop l seen = .ok () ↔
        ((∀ p ∈ l, isValidWindowsName p.2 = true) ∧
         l.Pairwise (fun p q => casefold p.2 ≠ casefold q.2) ∧
         (∀ p ∈ l, casefold p.2 ∉ seen)) := by
  intro l
  induction l with
  | nil => simp [checkSeenLoop]
  | cons hd rest ih =>
    intro seen
    rcases hd with ⟨o, n⟩
    rw [checkSeenLoop]
    by_cases hv : isValidWindowsName n = true
    · rw [if_neg (by simp [hv])]
      by_cases hs : casefold n ∈ seen
      · rw [if_pos (by simpa [List.elem_iff] using hs)]
        constructor
        · intro h
          cases h
        · rintro ⟨-, -, hns⟩
          exact absurd hs (hns (o, n) (List.mem_cons_self _ _))
      · rw [if_neg (by simpa [List.elem_iff] using hs)]
        rw [ih (casefold n :: seen)]
        constructor
        · rintro ⟨hval, hpw, hnm⟩
          refine ⟨?_, ?_, ?_⟩
          · intro p hp
            rcases List.mem_cons.mp hp with rfl | hp'
            · exact hv
            · exact hval p hp'
          · rw [List.pairwise_cons]
            exact ⟨fun q hq => fun he =>
              (hnm q hq) (by rw [← he]; exact List.mem_cons_self _ _), hpw⟩
          · intro p hp
            rcases List.mem_cons.mp hp with rfl | hp'
            · exact hs
            · intro hmem
              exact (hnm p hp') (List.mem_cons_of_mem _ hmem)
        · rintro ⟨hval, hpw, hnm⟩
          rw [List.pairwise_cons] at hpw
          refine ⟨fun p hp => hval p (List.mem_cons_of_mem _ hp), hpw.2, ?_⟩
          intro p hp hmem
          rcases List.mem_cons.mp hmem with he | hmem'
          · exact hpw.1 p hp he.symm
          · exact (hnm p (List.mem_cons_of_mem _ hp)) hmem'
    · rw [if_pos (by simp [hv])]
      constructor
      · intro h
        cases h
      · rintro ⟨hval, -, -⟩
        exact absurd (hval (o, n) (List.mem_cons_self _ _)) hv

theorem checkExistingLoop_ok_iff (ex : List PyStr) :
    ∀ l : List (PyStr × PyStr),
      checkExistingLoop ex l = .ok () ↔
        ∀ p ∈ l, casefold p.2 ∈ ex → casefold p.2 = casefold p.1 := by
  intro l
  induction l with
  | nil => simp [checkExistingLoop]
  | cons hd rest ih =>
    rcases hd with ⟨o, n⟩
    rw [checkExistingLoop]
    by_cases hc : ex.contains (casefold n) = true ∧ casefold n ≠ casefold o
    · rw [if_pos hc]
      constructor
      · intro h
        cases h
      · intro h
        exact absurd (h (o, n) (List.mem_cons_self _ _)
          (List.elem_iff.mp hc.1)) hc.2
    · rw [if_neg hc]
      rw [ih]
      constructor
      · intro h p hp hmem
        rcases List.mem_cons.mp hp with rfl | hp'
        · by_contra hne
          exact hc ⟨List.elem_iff.mpr hmem, hne⟩
        · exact h p hp' hmem
      · intro h p hp hmem
        exact h p (List.mem_cons_of_mem _ hp) hmem

/-- **C3 — counterexample.**  Batch `{a → b, b → c}` in a directory whose
visible children are exactly `a` and `b`: the occupant of target `b` is
the entry `b`, itself being renamed away in the same batch, yet
`check_conflicts_dir` refuses the operation (it only exempts a target
whose casefold equals the *same* item's source name). -/
theorem claim_C3_counterexample :
    checkConflictsDir
        [⟨['a'], true, false, false⟩, ⟨['b'], true, false, false⟩]
        [(['a'], ['b']), (['b'], ['c'])] = .error () ∧
      (['b'], ['c']) ∈ [(['a'], ['b']), (['b'], ['c'])] := by
  constructor
  · rfl
  · exact List.mem_cons_of_mem _ (List.mem_cons_self _ _)

/-- **C3 — amended claim.**  The conflict check passes exactly when every
planned target is a valid Windows name, no two planned targets collide
case-insensitively, and every planned target whose casefold occurs among
the existing visible (non-lock, non-symlink, non-hidden) children equals
— case-insensitively — the *same* item's own source name.  In particular
a target occupied by a *different* entry is refused even when that entry
is another member of the batch about to be renamed away. -/
theorem claim_C3_conflict_check :
    ∀ (listing : List Ent) (planned : List (PyStr × PyStr)),
      checkConflictsDir listing planned = .ok () ↔
        ((∀ p ∈ planned, isValidWindowsName p.2 = true) ∧
         planned.Pairwise (fun p q => casefold p.2 ≠ casefold q.2) ∧
         (∀ p ∈ planned, casefold p.2 ∈ conflictExisting listing →
            casefold p.2 = casefold p.1)) := by
  intro listing planned
  rw [checkConflictsDir]
  by_cases hemp : planned.isEmpty = true
  · rw [if_pos hemp]
    rcases planned with _ | ⟨hd, tl⟩
    · simp
    · cases hemp
  · rw [if_neg hemp]
    rcases hseen : checkSeenLoop planned [] with e | u
    · constructor
      · intro h
        cases h
      · rintro ⟨hval, hpw, -⟩
        have : checkSeenLoop planned [] = .ok () :=
          (checkSeenLoop_ok_iff planned []).mpr
            ⟨hval, hpw, fun p _ => List.not_mem_nil _⟩
        rw [this] at hseen
        cases hseen
    · cases u
      have hs := (checkSeenLoop_ok_iff planned []).mp hseen
      rw [checkExistingLoop_ok_iff]
      constructor
      · intro h
        exact ⟨hs.1, hs.2.1, h⟩
      · rintro ⟨-, -, h⟩
        exact h

/-- **C3 — witness.**  A batch `{a → b}` in a directory listing only `a`
satisfies the amended criteria, and the check indeed passes. -/
theorem claim_C3_conflict_check_witness :
    checkConflictsDir [⟨['a'], true, false, false⟩] [(['a'], ['b'])] =
      .ok () :=
  (claim_C3_conflict_check
      [⟨['a'], true, false, false⟩] [(['a'], ['b'])]).mpr (by decide)

/-!
## Plan-builder lemmas
-/

theorem planFoldersLoop_changed {width : Nat} {step : Int} {tmpOr : Nat → PyStr} :
    ∀ {items : List (Nat × Nat × PyStr)} {number : Int} {ti : Nat}
      {plans : List DirPlanM},
      planFoldersLoop width step tmpOr items number ti = .ok plans →
      ∀ dp ∈ plans, dp.finalBase ≠ dp.oldBase := by
  intro items
  induction items with
  | nil =>
    intro number ti plans h dp hdp
    rw [planFoldersLoop] at h
    cases h
    cases hdp
  | cons it rest ih =>
    intro number ti plans h dp hdp
    rcases it with ⟨pid, nid, base⟩
    rw [planFoldersLoop] at h
    by_cases hu : foldersTarget width number base = base
    · rw [if_pos hu] at h
      exact ih h dp hdp
    · rw [if_neg hu] at h
      by_cases hv : isValidWindowsName (foldersTarget width number base) = true
      · rw [if_neg (by simp [hv])] at h
        rcases hrec : planFoldersLoop width step tmpOr rest (number + step)
            (ti + 1) with e | ps
        · rw [hrec] at h
          cases h
        · rw [hrec] at h
          cases h
          rcases List.mem_cons.mp hdp with rfl | hdp'
          · exact hu
          · exact ih hrec dp hdp'
      · rw [if_pos (by simp [hv])] at h
        cases h

theorem planFilesLoop_changed {width : Nat} {step : Int} {tmpOr : Nat → PyStr} :
    ∀ {items : List PyStr} {number : Int} {ti : Nat} {plans : List FilePlanM},
      planFilesLoop width step tmpOr items number ti = .ok plans →
      ∀ fp ∈ plans, fp.finalBase ≠ fp.oldBase := by
  intro items
  induction items with
  | nil =>
    intro number ti plans h fp hfp
    rw [planFilesLoop] at h
    cases h
    cases hfp
  | cons base rest ih =>
    intro number ti plans h fp hfp
    rw [planFilesLoop] at h
    by_cases hu : filesTarget width number base = base
    · rw [if_pos hu] at h
      exact ih h fp hfp
    · rw [if_neg hu] at h
      by_cases hv : isValidWindowsName (filesTarget width number base) = true
      · rw [if_neg (by simp [hv])] at h
        rcases hrec : planFilesLoop width step tmpOr rest (number + step)
            (ti + 1) with e | ps
        · rw [hrec] at h
          cases h
        · rw [hrec] at h
          cases h
          rcases List.mem_cons.mp hfp with rfl | hfp'
          · exact hu
          · exact ih hrec fp hfp'
      · rw [if_pos (by simp [hv])] at h
        cases h

theorem planFoldersLoop_assigns {width : Nat} {step : Int} {tmpOr : Nat → PyStr} :
    ∀ (items : List (Nat × Nat × PyStr)) (number : Int) (ti : Nat)
      (plans : List DirPlanM),
      planFoldersLoop width step tmpOr items number ti = .ok plans →
      ∀ i (h : i < items.length),
        foldersTarget width (number + i * step) (items.get ⟨i, h⟩).2.2 ≠
          (items.get ⟨i, h⟩).2.2 →
        ∃ dp ∈ plans,
          dp.origId = (items.get ⟨i, h⟩).2.1 ∧
          dp.parentId = (items.get ⟨i, h⟩).1 ∧
          dp.oldBase = (items.get ⟨i, h⟩).2.2 ∧
          dp.finalBase =
            foldersTarget width (number + i * step) (items.get ⟨i, h⟩).2.2 := by
  intro items
  induction items with
  | nil =>
    intro number ti plans _ i h
    exact absurd h (by simp)
  | cons it rest ih =>
    intro number ti plans hok i h hch
    rcases it with ⟨pid, nid, base⟩
    rw [planFoldersLoop] at hok
    by_cases hu : foldersTarget width number base = base
    · rw [if_pos hu] at hok
      cases i with
      | zero =>
        exfalso
        apply hch
        simpa using hu
      | succ j =>
        have hj : j < rest.length := by
          simpa [Nat.succ_lt_succ_iff] using h
        have harith : number + (j + 1 : Nat) * step =
            number + step + (j : Nat) * step := by
          push_cast
          ring
        have := ih (number + step) ti plans hok j hj
          (by
            rw [List.get_cons_succ] at hch
            rw [← harith]
            exact hch)
        rw [List.get_cons_succ]
        rw [← harith] at this
        exact this
    · rw [if_neg hu] at hok
      by_cases hv : isValidWindowsName (foldersTarget width number base) = true
      · rw [if_neg (by simp [hv])] at hok
        rcases hrec : planFoldersLoop width step tmpOr rest (number + step)
            (ti + 1) with e | ps
        · rw [hrec] at hok
          cases hok
        · rw [hrec] at hok
          cases hok
          cases i with
          | zero =>
            refine ⟨_, List.mem_cons_self _ _, rfl, rfl, rfl, ?_⟩
            simp
          | succ j =>
            have hj : j < rest.length := by
              simpa [Nat.succ_lt_succ_iff] using h
            have harith : number + (j + 1 : Nat) * step =
                number + step + (j : Nat) * step := by
              push_cast
              ring
            rw [List.get_cons_succ] at hch ⊢
            rw [harith] at hch ⊢
            obtain ⟨dp, hdp, hfields⟩ := ih (number + step) (ti + 1) ps hrec j hj hch
            exact ⟨dp, List.mem_cons_of_mem _ hdp, hfields⟩
      · rw [if_pos (by simp [hv])] at hok
        cases hok

theorem planFoldersLoop_sublist {width : Nat} {step : Int} {tmpOr : Nat → PyStr} :
    ∀ {items : List (Nat × Nat × PyStr)} {number : Int} {ti : Nat}
      {plans : List DirPlanM},
      planFoldersLoop width step tmpOr items number ti = .ok plans →
      (plans.map (fun dp => (dp.parentId, dp.oldBase))).Sublist
        (items.map (fun it => (it.1, it.2.2))) := by
  intro items
  induction items with
  | nil =>
    intro number ti plans h
    rw [planFoldersLoop] at h
    cases h
    simp
  | cons it rest ih =>
    intro number ti plans h
    rcases it with ⟨pid, nid, base⟩
    rw [planFoldersLoop] at h
    by_cases hu : foldersTarget width number base = base
    · rw [if_pos hu] at h
      exact (ih h).cons _
    · rw [if_neg hu] at h
      by_cases hv : isValidWindowsName (foldersTarget width number base) = true
      · rw [if_neg (by simp [hv])] at h
        rcases hrec : planFoldersLoop width step tmpOr rest (number + step)
            (ti + 1) with e | ps
        · rw [hrec] at h
          cases h
        · rw [hrec] at h
          cases h
          exact (ih hrec).cons₂ _
      · rw [if_pos (by simp [hv])] at h
        cases h

theorem mem_assocUpsert_self [DecidableEq α] (k : α) (v : β) :
    ∀ m : List (α × β), (k, v) ∈ assocUpsert k v m
  | [] => List.mem_cons_self _ _
  | (k', v') :: rest => by
    rw [assocUpsert]
    by_cases hk : k' = k
    · rw [if_pos hk]
      exact List.mem_cons_self _ _
    · rw [if_neg hk]
      exact List.mem_cons_of_mem _ (mem_assocUpsert_self k v rest)

theorem mem_assocUpsert_of_ne [DecidableEq α] {k' : α} {v' : β} (k : α) (v : β) :
    ∀ m : List (α × β), (k', v') ∈ m → k' ≠ k → (k', v') ∈ assocUpsert k v m := by
  intro m
  induction m with
  | nil =>
    intro h
    cases h
  | cons hd rest ih =>
    intro hmem hne
    rcases hd with ⟨k0, v0⟩
    rw [assocUpsert]
    by_cases hk : k0 = k
    · rw [if_pos hk]
      rcases List.mem_cons.mp hmem with he | hmem'
      · cases he
        exact absurd hk hne
      · exact List.mem_cons_of_mem _ hmem'
    · rw [if_neg hk]
      rcases List.mem_cons.mp hmem with he | hmem'
      · rw [he]
        exact List.mem_cons_self _ _
      · exact List.mem_cons_of_mem _ (ih hmem' hne)

theorem perParent_fold_pres (pid : Nat) {k : PyStr} {v : PyStr} :
    ∀ (l : List DirPlanM) (m : List (PyStr × PyStr)),
      (k, v) ∈ m → (∀ dp ∈ l, dp.parentId = pid → dp.oldBase ≠ k) →
      (k, v) ∈ l.foldl
        (fun m dp => if dp.parentId = pid then
            assocUpsert dp.oldBase dp.finalBase m else m) m := by
  intro l
  induction l with
  | nil =>
    intro m hm _
    exact hm
  | cons dp rest ih =>
    intro m hm hl
    rw [List.foldl_cons]
    by_cases hp : dp.parentId = pid
    · rw [if_pos hp]
      exact ih _ (mem_assocUpsert_of_ne _ _ _ hm
          (fun he => hl dp (List.mem_cons_self _ _) hp he.symm))
        (fun q hq => hl q (List.mem_cons_of_mem _ hq))
    · rw [if_neg hp]
      exact ih _ hm (fun q hq => hl q (List.mem_cons_of_mem _ hq))

theorem mem_perParent_fold (pid : Nat) :
    ∀ (l : List DirPlanM) (m : List (PyStr × PyStr)) (dp : DirPlanM),
      dp ∈ l →
      l.Pairwise (fun a b => (a.parentId, a.oldBase) ≠ (b.parentId, b.oldBase)) →
      dp.parentId = pid →
      (dp.oldBase, dp.finalBase) ∈ l.foldl
        (fun m q => if q.parentId = pid then
            assocUpsert q.oldBase q.finalBase m else m) m := by
  intro l
  induction l with
  | nil =>
    intro m dp h
    cases h
  | cons hd rest ih =>
    intro m dp hmem hpw hpid
    rw [List.pairwise_cons] at hpw
    rw [List.foldl_cons]
    rcases List.mem_cons.mp hmem with rfl | hmem'
    · rw [if_pos hpid]
      refine perParent_fold_pres pid rest _ (mem_assocUpsert_self _ _ _) ?_
      intro q hq hqp he
      exact hpw.1 q hq (by rw [hpid, hqp, he])
    · by_cases hp : hd.parentId = pid
      · rw [if_pos hp]
        exact ih _ dp hmem' hpw.2 hpid
      · rw [if_neg hp]
        exact ih _ dp hmem' hpw.2 hpid

theorem mem_perParentMapping {plans : List DirPlanM} {dp : DirPlanM}
    (hmem : dp ∈ plans)
    (hpw : plans.Pairwise
      (fun a b => (a.parentId, a.oldBase) ≠ (b.parentId, b.oldBase))) :
    (dp.oldBase, dp.finalBase) ∈ perParentMapping plans dp.parentId :=
  mem_perParent_fold dp.parentId plans [] dp hmem hpw rfl

theorem mem_parents_foldl_mono :
    ∀ (l : List DirPlanM) (acc : List Nat) (x : Nat), x ∈ acc →
      x ∈ l.foldl
        (fun acc dp => if acc.contains dp.parentId then acc
          else acc ++ [dp.parentId]) acc := by
  intro l
  induction l with
  | nil =>
    intro acc x hx
    exact hx
  | cons hd rest ih =>
    intro acc x hx
    rw [List.foldl_cons]
    by_cases hc : acc.contains hd.parentId = true
    · rw [if_pos hc]
      exact ih _ _ hx
    · rw [if_neg hc]
      exact ih _ _ (List.mem_append_left _ hx)

theorem parent_mem_parents_fold :
    ∀ (l : List DirPlanM) (acc : List Nat) (dp : DirPlanM), dp ∈ l →
      dp.parentId ∈ l.foldl
        (fun acc dp => if acc.contains dp.parentId then acc
          else acc ++ [dp.parentId]) acc := by
  intro l
  induction l with
  | nil =>
    intro acc dp h
    cases h
  | cons hd rest ih =>
    intro acc dp hmem
    rw [List.foldl_cons]
    rcases List.mem_cons.mp hmem with rfl | hmem'
    · by_cases hc : acc.contains dp.parentId = true
      · rw [if_pos hc]
        exact mem_parents_foldl_mono rest _ _ (List.elem_iff.mp hc)
      · rw [if_neg hc]
        exact mem_parents_foldl_mono rest _ _
          (List.mem_append_right _ (List.mem_singleton.mpr rfl))
    · by_cases hc : acc.contains hd.parentId = true
      · rw [if_pos hc]
        exact ih _ _ hmem'
      · rw [if_neg hc]
        exact ih _ _ hmem'

theorem parent_mem_parentsInOrder {plans : List DirPlanM} {dp : DirPlanM}
    (hmem : dp ∈ plans) : dp.parentId ∈ parentsInOrder plans :=
  parent_mem_parents_fold plans [] dp hmem

theorem checkAllParents_ok {listingOf : Nat → List Ent} {plans : List DirPlanM} :
    ∀ {pids : List Nat}, checkAllParents listingOf plans pids = .ok () →
      ∀ pid ∈ pids,
        checkConflictsDir (listingOf pid) (perParentMapping plans pid) =
          .ok () := by
  intro pids
  induction pids with
  | nil =>
    intro _ pid h
    cases h
  | cons hd rest ih =>
    intro h pid hmem
    rw [checkAllParents] at h
    rcases hc : checkConflictsDir (listingOf hd) (perParentMapping plans hd)
      with e | u
    · rw [hc] at h
      cases h
    · cases u
      rw [hc] at h
      rcases List.mem_cons.mp hmem with rfl | hmem'
      · exact hc
      · exact ih h pid hmem'

theorem pairwise_of_checkConflicts_ok {listing : List Ent}
    {planned : List (PyStr × PyStr)}
    (h : checkConflictsDir listing planned = .ok ()) :
    planned.Pairwise (fun p q => casefold p.2 ≠ casefold q.2) := by
  rcases planned with _ | ⟨hd, tl⟩
  · exact List.Pairwise.nil
  · rw [checkConflictsDir] at h
    rw [if_neg (by simp)] at h
    rcases hs : checkSeenLoop (hd :: tl) [] with e | u
    · rw [hs] at h
      cases h
    · cases u
      exact ((checkSeenLoop_ok_iff (hd :: tl) []).mp hs).2.1

theorem planFolders_ok_pairwise {listingOf : Nat → List Ent}
    {items : List (Nat × Nat × PyStr)} {start step : Int} {width : Nat}
    {tmpOr : Nat → PyStr} {plans : List DirPlanM} {n : Nat}
    (hnd : (items.map (fun it => (it.1, it.2.2))).Nodup)
    (h : planFolders listingOf items start step width tmpOr = .ok (plans, n)) :
    ∀ dp1 ∈ plans, ∀ dp2 ∈ plans, dp1.parentId = dp2.parentId → dp1 ≠ dp2 →
      casefold dp1.finalBase ≠ casefold dp2.finalBase := by
  rw [planFolders] at h
  rcases hl : planFoldersLoop width step tmpOr items start 0 with e | ps
  · rw [hl] at h
    cases h
  · rw [hl] at h
    dsimp only at h
    rcases hc : checkAllParents listingOf ps (parentsInOrder ps) with e | u
    · rw [hc] at h
      cases h
    · cases u
      rw [hc] at h
      dsimp only at h
      cases h
      intro dp1 h1 dp2 h2 hp hne
      have hsub := planFoldersLoop_sublist hl
      have hndp := List.Nodup.sublist hsub hnd
      have hkey : (dp1.parentId, dp1.oldBase) ≠ (dp2.parentId, dp2.oldBase) :=
        fun he => hne (List.inj_on_of_nodup_map hndp h1 h2 he)
      have hold : dp1.oldBase ≠ dp2.oldBase := by
        intro he
        exact hkey (by rw [hp, he])
      have hpw : plans.Pairwise
          (fun a b => (a.parentId, a.oldBase) ≠ (b.parentId, b.oldBase)) :=
        List.pairwise_map.mp hndp
      have hm1 := mem_perParentMapping h1 hpw
      have hm2 : (dp2.oldBase, dp2.finalBase) ∈
          perParentMapping plans dp1.parentId := by
        rw [hp]
        exact mem_perParentMapping h2 hpw
      have hchk := checkAllParents_ok hc dp1.parentId
        (parent_mem_parentsInOrder h1)
      have hpwm := pairwise_of_checkConflicts_ok hchk
      have hsym : Symmetric
          (fun p q : PyStr × PyStr => casefold p.2 ≠ casefold q.2) :=
        fun p q hpq => fun he => hpq he.symm
      exact hpwm.forall hsym hm1 hm2
        (fun he => hold (congrArg Prod.fst he))

/-- **C4.**  Collision safety of the folder planner: (a) an accepted plan
never contains two items sharing a parent whose target base names are
equal case-insensitively; (b) whenever two distinct scanned items of the
same parent would receive case-insensitively equal (changed) target
names, plan building returns an error — before any mutation, since the
planner is a pure function of the scan snapshot.  The `Nodup` hypothesis
is the scanner invariant that a directory never lists the same base name
twice. -/
theorem claim_C4_collision_safety :
    ∀ (listingOf : Nat → List Ent) (items : List (Nat × Nat × PyStr))
      (start step : Int) (width : Nat) (tmpOr : Nat → PyStr),
      (items.map (fun it => (it.1, it.2.2))).Nodup →
      ((∀ plans n,
          planFolders listingOf items start step width tmpOr = .ok (plans, n) →
          ∀ dp1 ∈ plans, ∀ dp2 ∈ plans, dp1.parentId = dp2.parentId →
            dp1 ≠ dp2 → casefold dp1.finalBase ≠ casefold dp2.finalBase) ∧
       (∀ i j (hi : i < items.length) (hj : j < items.length), i ≠ j →
          (items.get ⟨i, hi⟩).1 = (items.get ⟨j, hj⟩).1 →
          foldersTarget width (start + i * step) (items.get ⟨i, hi⟩).2.2 ≠
            (items.get ⟨i, hi⟩).2.2 →
          foldersTarget width (start + j * step) (items.get ⟨j, hj⟩).2.2 ≠
            (items.get ⟨j, hj⟩).2.2 →
          casefold (foldersTarget width (start + i * step)
              (items.get ⟨i, hi⟩).2.2) =
            casefold (foldersTarget width (start + j * step)
              (items.get ⟨j, hj⟩).2.2) →
          planFolders listingOf items start step width tmpOr = .error ())) := by
  intro listingOf items start step width tmpOr hnd
  constructor
  · intro plans n h
    exact planFolders_ok_pairwise hnd h
  · intro i j hi hj hij hpar hchi hchj hcf
    rcases h : planFolders listingOf items start step width tmpOr
      with e | ⟨plans, n⟩
    · rfl
    · exfalso
      have hex : ∃ ps, planFoldersLoop width step tmpOr items start 0 = .ok ps ∧
          ps = plans := by
        rw [planFolders] at h
        rcases hl0 : planFoldersLoop width step tmpOr items start 0
          with e | ps
        · rw [hl0] at h
          cases h
        · rw [hl0] at h
          dsimp only at h
          rcases hc0 : checkAllParents listingOf ps (parentsInOrder ps)
            with e | u
          · rw [hc0] at h
            cases h
          · cases u
            rw [hc0] at h
            dsimp only at h
            cases h
            exact ⟨_, rfl, rfl⟩
      obtain ⟨ps, hl, rfl⟩ := hex
      obtain ⟨dp1, hm1, hid1, hp1, ho1, hf1⟩ :=
        planFoldersLoop_assigns items start 0 ps hl i hi hchi
      obtain ⟨dp2, hm2, hid2, hp2, ho2, hf2⟩ :=
        planFoldersLoop_assigns items start 0 ps hl j hj hchj
      have hbase : (items.get ⟨i, hi⟩).2.2 ≠ (items.get ⟨j, hj⟩).2.2 := by
        intro he
        have hg : (items.map (fun it => (it.1, it.2.2))).get
            ⟨i, by simpa using hi⟩ =
            (items.map (fun it => (it.1, it.2.2))).get
              ⟨j, by simpa using hj⟩ := by
          rw [List.get_map, List.get_map]
          exact Prod.ext hpar he
        have hfin := (hnd.get_inj_iff).mp hg
        exact hij (by simpa using congrArg Fin.val hfin)
      have hne : dp1 ≠ dp2 := by
        intro he
        apply hbase
        rw [← ho1, ← ho2, he]
      have hpp : dp1.parentId = dp2.parentId := by
        rw [hp1, hp2]
        exact hpar
      have hcfne := planFolders_ok_pairwise hnd h dp1 hm1 dp2 hm2 hpp hne
      apply hcfne
      rw [hf1, hf2]
      exact hcf

/-- **C4 — witness.**  Two sibling folders `a` and `A` with `step = 0`
would both receive the target `0 a` / `0 A` (case-insensitively equal),
and plan building indeed fails. -/
theorem claim_C4_collision_safety_witness :
    planFolders
        (fun _ => [⟨['a'], false, false, false⟩, ⟨['A'], false, false, false⟩])
        [(0, 1, ['a']), (0, 2, ['A'])] 0 0 1 (fun _ => []) = .error () :=
  ((claim_C4_collision_safety
      (fun _ => [⟨['a'], false, false, false⟩, ⟨['A'], false, false, false⟩])
      [(0, 1, ['a']), (0, 2, ['A'])] 0 0 1 (fun _ => []) (by decide)).2
    0 1 (by decide) (by decide) (by decide) (by decide)
    (by decide) (by decide) (by decide))

/-!
## Claim C5
-/

/-- **C5 — counterexample.**  A single folder `000 A` scanned with
`start = 0, step = 10, width = 3` computes its own name as target
(`unchanged`), and `plan_folders` returns the *empty* plan list —
`checked = 1` is the only trace of the entry.  The claim's statement
that the unchanged item "remains present in the produced Plan" is
false: the code's `continue` drops it before the `DirPlan` is built. -/
theorem claim_C5_counterexample :
    planFolders
        (fun _ => [⟨['0', '0', '0', ' ', 'A'], false, false, false⟩])
        [(0, 1, ['0', '0', '0', ' ', 'A'])] 0 10 3 (fun _ => []) =
      .ok ([], 1) := by
  rfl

/-- **C5 — amended claim.**  An entry whose computed target equals its
current name is excluded from the produced plan list entirely — and
hence from staging, commit and rollback, which only iterate the plan
list — while the `checked` counter (the second component, reported in
the summary line) still counts every scanned entry.  Every plan item
that is produced is a genuine rename (`finalBase ≠ oldBase`). -/
theorem claim_C5_unchanged_excluded :
    (∀ (listingOf : Nat → List Ent) (items : List (Nat × Nat × PyStr))
       (start step : Int) (width : Nat) (tmpOr : Nat → PyStr)
       (plans : List DirPlanM) (n : Nat),
       planFolders listingOf items start step width tmpOr = .ok (plans, n) →
       (∀ dp ∈ plans, dp.finalBase ≠ dp.oldBase) ∧ n = items.length) ∧
    (∀ (listing : List Ent) (start step : Int) (width : Nat)
       (flt : Option (List PyStr)) (tmpOr : Nat → PyStr)
       (plans : List FilePlanM) (n : Nat),
       planFiles listing start step width flt tmpOr = .ok (plans, n) →
       (∀ fp ∈ plans, fp.finalBase ≠ fp.oldBase) ∧
         n = (iterVisibleFiles listing flt).length) := by
  constructor
  · intro listingOf items start step width tmpOr plans n h
    rw [planFolders] at h
    rcases hl : planFoldersLoop width step tmpOr items start 0 with e | ps
    · rw [hl] at h
      cases h
    · rw [hl] at h
      dsimp only at h
      rcases hc : checkAllParents listingOf ps (parentsInOrder ps) with e | u
      · rw [hc] at h
        cases h
      · cases u
        rw [hc] at h
        dsimp only at h
        cases h
        exact ⟨planFoldersLoop_changed hl, rfl⟩
  · intro listing start step width flt tmpOr plans n h
    rw [planFiles] at h
    rcases hl : planFilesLoop width step tmpOr
        ((iterVisibleFiles listing flt).map (·.name)) start 0 with e | ps
    · rw [hl] at h
      cases h
    · rw [hl] at h
      dsimp only at h
      rcases hc : checkConflictsDir listing
          (ps.foldl (fun m fp => assocUpsert fp.oldBase fp.finalBase m) [])
        with e | u
      · rw [hc] at h
        cases h
      · cases u
        rw [hc] at h
        dsimp only at h
        cases h
        refine ⟨planFilesLoop_changed hl, ?_⟩
        simp

/-- **C5 — witness.**  A directory with one folder `a` (target `5 a`,
changed): the accepted plan's single item is a genuine rename and the
checked count is one. -/
theorem claim_C5_unchanged_excluded_witness :
    ∃ plans : List DirPlanM,
      planFolders (fun _ => [⟨['a'], false, false, false⟩])
          [(0, 1, ['a'])] 5 1 1 (fun _ => []) = .ok (plans, 1) ∧
      ∀ dp ∈ plans, dp.finalBase ≠ dp.oldBase := by
  refine ⟨_, rfl, ?_⟩
  intro dp hdp
  exact ((claim_C5_unchanged_excluded.1
      (fun _ => [⟨['a'], false, false, false⟩]) [(0, 1, ['a'])]
      5 1 1 (fun _ => []) _ 1 rfl).1) dp hdp

/-!
## Claim C9
-/

/-- Forget the randomly generated temporary name of a `DirPlan` (the only
plan component that depends on the `uuid4` oracle). -/
def eraseTmpD (dp : DirPlanM) : DirPlanM :=
  { dp with tmpBase := [] }

/-- Forget the randomly generated temporary name of a `FilePlan`. -/
def eraseTmpF (fp : FilePlanM) : FilePlanM :=
  { fp with tmpBase := [] }

theorem planFoldersLoop_tmp_congr (width : Nat) (step : Int) :
    ∀ (items : List (Nat × Nat × PyStr)) (number : Int)
      (or1 or2 : Nat → PyStr) (ti1 ti2 : Nat),
      Except.map (List.map eraseTmpD)
          (planFoldersLoop width step or1 items number ti1) =
        Except.map (List.map eraseTmpD)
          (planFoldersLoop width step or2 items number ti2) := by
  intro items
  induction items with
  | nil =>
    intro number or1 or2 ti1 ti2
    rfl
  | cons it rest ih =>
    intro number or1 or2 ti1 ti2
    rcases it with ⟨pid, nid, base⟩
    rw [planFoldersLoop, planFoldersLoop]
    by_cases hu : foldersTarget width number base = base
    · rw [if_pos hu, if_pos hu]
      exact ih (number + step) or1 or2 ti1 ti2
    · rw [if_neg hu, if_neg hu]
      by_cases hv : isValidWindowsName (foldersTarget width number base) = true
      · rw [if_neg (by simp [hv]), if_neg (by simp [hv])]
        have hrec := ih (number + step) or1 or2 (ti1 + 1) (ti2 + 1)
        revert hrec
        generalize planFoldersLoop width step or1 rest (number + step)
          (ti1 + 1) = r1
        generalize planFoldersLoop width step or2 rest (number + step)
          (ti2 + 1) = r2
        intro hrec
        rcases r1 with e1 | ps1 <;> rcases r2 with e2 | ps2
        · cases e1
          cases e2
          rfl
        · simp [Except.map] at hrec
        · simp [Except.map] at hrec
        · have hmap : ps1.map eraseTmpD = ps2.map eraseTmpD := by
            simpa [Except.map] using hrec
          simp [Except.map, eraseTmpD, hmap]
      · rw [if_pos (by simp [hv]), if_pos (by simp [hv])]

theorem planFilesLoop_tmp_congr (width : Nat) (step : Int) :
    ∀ (items : List PyStr) (number : Int) (or1 or2 : Nat → PyStr)
      (ti1 ti2 : Nat),
      Except.map (List.map eraseTmpF)
          (planFilesLoop width step or1 items number ti1) =
        Except.map (List.map eraseTmpF)
          (planFilesLoop width step or2 items number ti2) := by
  intro items
  induction items with
  | nil =>
    intro number or1 or2 ti1 ti2
    rfl
  | cons base rest ih =>
    intro number or1 or2 ti1 ti2
    rw [planFilesLoop, planFilesLoop]
    by_cases hu : filesTarget width number base = base
    · rw [if_pos hu, if_pos hu]
      exact ih (number + step) or1 or2 ti1 ti2
    · rw [if_neg hu, if_neg hu]
      by_cases hv : isValidWindowsName (filesTarget width number base) = true
      · rw [if_neg (by simp [hv]), if_neg (by simp [hv])]
        have hrec := ih (number + step) or1 or2 (ti1 + 1) (ti2 + 1)
        revert hrec
        generalize planFilesLoop width step or1 rest (number + step)
          (ti1 + 1) = r1
        generalize planFilesLoop width step or2 rest (number + step)
          (ti2 + 1) = r2
        intro hrec
        rcases r1 with e1 | ps1 <;> rcases r2 with e2 | ps2
        · cases e1
          cases e2
          rfl
        · simp [Except.map] at hrec
        · simp [Except.map] at hrec
        · have hmap : ps1.map eraseTmpF = ps2.map eraseTmpF := by
            simpa [Except.map] using hrec
          simp [Except.map, eraseTmpF, hmap]
      · rw [if_pos (by simp [hv]), if_pos (by simp [hv])]

theorem eraseTmpD_fields {a b : DirPlanM} (h : eraseTmpD a = eraseTmpD b) :
    a.origId = b.origId ∧ a.parentId = b.parentId ∧ a.oldBase = b.oldBase ∧
      a.rest = b.rest ∧ a.finalBase = b.finalBase := by
  cases a
  cases b
  simp [eraseTmpD] at h
  exact ⟨h.1, h.2.1, h.2.2.1, h.2.2.2.1, h.2.2.2.2⟩

theorem eraseTmpF_fields {a b : FilePlanM} (h : eraseTmpF a = eraseTmpF b) :
    a.oldBase = b.oldBase ∧ a.rest = b.rest ∧ a.ext = b.ext ∧
      a.finalBase = b.finalBase := by
  cases a
  cases b
  simp [eraseTmpF] at h
  exact ⟨h.1, h.2.1, h.2.2.1, h.2.2.2⟩

theorem perParentMapping_fold_congr (pid : Nat) :
    ∀ (ps1 ps2 : List DirPlanM) (m : List (PyStr × PyStr)),
      ps1.map eraseTmpD = ps2.map eraseTmpD →
      ps1.foldl (fun m dp => if dp.parentId = pid then
          assocUpsert dp.oldBase dp.finalBase m else m) m =
        ps2.foldl (fun m dp => if dp.parentId = pid then
          assocUpsert dp.oldBase dp.finalBase m else m) m := by
  intro ps1
  induction ps1 with
  | nil =>
    intro ps2 m h
    cases ps2 with
    | nil => rfl
    | cons b l => cases h
  | cons a l1 ih =>
    intro ps2 m h
    cases ps2 with
    | nil => cases h
    | cons b l2 =>
      rw [List.map_cons, List.map_cons] at h
      have h1 : eraseTmpD a = eraseTmpD b := (List.cons.injEq _ _ _ _ ▸ h).1
      have h2 : l1.map eraseTmpD = l2.map eraseTmpD :=
        (List.cons.injEq _ _ _ _ ▸ h).2
      have hpar : a.parentId = b.parentId := (eraseTmpD_fields h1).2.1
      have hold : a.oldBase = b.oldBase := (eraseTmpD_fields h1).2.2.1
      have hfin : a.finalBase = b.finalBase := (eraseTmpD_fields h1).2.2.2.2
      rw [List.foldl_cons, List.foldl_cons, hpar, hold, hfin]
      exact ih l2 _ h2

theorem parentsInOrder_congr :
    ∀ (ps1 ps2 : List DirPlanM) (acc : List Nat),
      ps1.map eraseTmpD = ps2.map eraseTmpD →
      ps1.foldl (fun acc dp => if acc.contains dp.parentId then acc
          else acc ++ [dp.parentId]) acc =
        ps2.foldl (fun acc dp => if acc.contains dp.parentId then acc
          else acc ++ [dp.parentId]) acc := by
  intro ps1
  induction ps1 with
  | nil =>
    intro ps2 acc h
    cases ps2 with
    | nil => rfl
    | cons b l => cases h
  | cons a l1 ih =>
    intro ps2 acc h
    cases ps2 with
    | nil => cases h
    | cons b l2 =>
      rw [List.map_cons, List.map_cons] at h
      have h1 : eraseTmpD a = eraseTmpD b := (List.cons.injEq _ _ _ _ ▸ h).1
      have h2 : l1.map eraseTmpD = l2.map eraseTmpD :=
        (List.cons.injEq _ _ _ _ ▸ h).2
      have hpar : a.parentId = b.parentId := (eraseTmpD_fields h1).2.1
      rw [List.foldl_cons, List.foldl_cons, hpar]
      exact ih l2 _ h2

theorem filesMapping_fold_congr :
    ∀ (ps1 ps2 : List FilePlanM) (m : List (PyStr × PyStr)),
      ps1.map eraseTmpF = ps2.map eraseTmpF →
      ps1.foldl (fun m fp => assocUpsert fp.oldBase fp.finalBase m) m =
        ps2.foldl (fun m fp => assocUpsert fp.oldBase fp.finalBase m) m := by
  intro ps1
  induction ps1 with
  | nil =>
    intro ps2 m h
    cases ps2 with
    | nil => rfl
    | cons b l => cases h
  | cons a l1 ih =>
    intro ps2 m h
    cases ps2 with
    | nil => cases h
    | cons b l2 =>
      rw [List.map_cons, List.map_cons] at h
      have h1 : eraseTmpF a = eraseTmpF b := (List.cons.injEq _ _ _ _ ▸ h).1
      have h2 : l1.map eraseTmpF = l2.map eraseTmpF :=
        (List.cons.injEq _ _ _ _ ▸ h).2
      have hold : a.oldBase = b.oldBase := (eraseTmpF_fields h1).1
      have hfin : a.finalBase = b.finalBase := (eraseTmpF_fields h1).2.2.2
      rw [List.foldl_cons, List.foldl_cons, hold, hfin]
      exact ih l2 _ h2

theorem checkAllParents_congr {listingOf : Nat → List Ent}
    {ps1 ps2 : List DirPlanM} (h : ps1.map eraseTmpD = ps2.map eraseTmpD) :
    ∀ pids : List Nat,
      checkAllParents listingOf ps1 pids = checkAllParents listingOf ps2 pids := by
  intro pids
  induction pids with
  | nil => rfl
  | cons hd rest ih =>
    rw [checkAllParents, checkAllParents]
    rw [show perParentMapping ps1 hd = perParentMapping ps2 hd from
      perParentMapping_fold_congr hd ps1 ps2 [] h]
    rcases checkConflictsDir (listingOf hd) (perParentMapping ps2 hd)
      with e | u
    · rfl
    · cases u
      exact ih

/-- **C9.**  Determinism of the plan builders: for a fixed scan snapshot
and fixed options the produced plans — projected to everything except
the randomly generated temporary names — do not depend on the random
oracle: target names, all other fields, ordering, the checked count and
the accept/reject outcome are identical across runs. -/
theorem claim_C9_determinism :
    (∀ (listingOf : Nat → List Ent) (items : List (Nat × Nat × PyStr))
       (start step : Int) (width : Nat) (or1 or2 : Nat → PyStr),
       Except.map (fun r => (r.1.map eraseTmpD, r.2))
           (planFolders listingOf items start step width or1) =
         Except.map (fun r => (r.1.map eraseTmpD, r.2))
           (planFolders listingOf items start step width or2)) ∧
    (∀ (listing : List Ent) (start step : Int) (width : Nat)
       (flt : Option (List PyStr)) (or1 or2 : Nat → PyStr),
       Except.map (fun r => (r.1.map eraseTmpF, r.2))
           (planFiles listing start step width flt or1) =
         Except.map (fun r => (r.1.map eraseTmpF, r.2))
           (planFiles listing start step width flt or2)) := by
  constructor
  · intro listingOf items start step width or1 or2
    have hloop := planFoldersLoop_tmp_congr width step items start or1 or2 0 0
    rw [planFolders, planFolders]
    revert hloop
    generalize planFoldersLoop width step or1 items start 0 = r1
    generalize planFoldersLoop width step or2 items start 0 = r2
    intro hloop
    rcases r1 with e1 | ps1 <;> rcases r2 with e2 | ps2
    · cases e1
      cases e2
      rfl
    · simp [Except.map] at hloop
    · simp [Except.map] at hloop
    · have hmap : ps1.map eraseTmpD = ps2.map eraseTmpD := by
        simpa [Except.map] using hloop
      dsimp only
      rw [show parentsInOrder ps1 = parentsInOrder ps2 from
        parentsInOrder_congr ps1 ps2 [] hmap]
      rw [checkAllParents_congr hmap (parentsInOrder ps2)]
      rcases hc : checkAllParents listingOf ps2 (parentsInOrder ps2) with e | u
      · try rw [hc]
        rfl
      · cases u
        try rw [hc]
        dsimp only [Except.map]
        rw [hmap]
  · intro listing start step width flt or1 or2
    have hloop := planFilesLoop_tmp_congr width step
      ((iterVisibleFiles listing flt).map (·.name)) start or1 or2 0 0
    rw [planFiles, planFiles]
    revert hloop
    generalize planFilesLoop width step or1
      ((iterVisibleFiles listing flt).map (·.name)) start 0 = r1
    generalize planFilesLoop width step or2
      ((iterVisibleFiles listing flt).map (·.name)) start 0 = r2
    intro hloop
    rcases r1 with e1 | ps1 <;> rcases r2 with e2 | ps2
    · cases e1
      cases e2
      rfl
    · simp [Except.map] at hloop
    · simp [Except.map] at hloop
    · have hmap : ps1.map eraseTmpF = ps2.map eraseTmpF := by
        simpa [Except.map] using hloop
      dsimp only
      rw [show ps1.foldl (fun m fp => assocUpsert fp.oldBase fp.finalBase m) [] =
          ps2.foldl (fun m fp => assocUpsert fp.oldBase fp.finalBase m) [] from
        filesMapping_fold_congr ps1 ps2 [] hmap]
      rcases hc : checkConflictsDir listing
          (ps2.foldl (fun m fp => assocUpsert fp.oldBase fp.finalBase m) [])
        with e | u
      · try rw [hc]
        try rfl
      · cases u
        try rw [hc]
        dsimp only [Except.map]
        rw [hmap]

/-!
## Claim C1

The spec's atomicity property fails on the code: `rollback_files`
(and `rollback_dirs`) match entries to restore purely *by base name*,
without re-applying the hidden/system filter the scanner and the
conflict checker use.  A hidden file that happens to carry a planned
final name is therefore captured by the rollback's `final → tmp` pass
and then renamed to the plan item's *source* name, overwriting the real
source file that the failed staging never touched. -/

/-- **C1 — the failing input, evaluated.**  Directory with a visible file
`1 A.txt` and a *hidden* file `000 A.txt`; `files` mode with
`start = 0, step = 10, width = 3` plans `1 A.txt → 000 A.txt` (the
hidden occupant is invisible to the conflict check, which passes).  The
injected failure strikes the very first staging rename, so the
filesystem is still untouched when rollback begins — yet rollback
renames the hidden `000 A.txt` to the temporary name and then onto
`1 A.txt`, overwriting the original.  The run returns 1, but the
surviving name set is `{1 A.txt}` instead of the original
`{1 A.txt, 000 A.txt}`: rollback does *not* restore the starting
state. -/
theorem claim_C1_rollback_code_bug :
    runFilesGo
        [⟨"1 A.txt".toList, true, false, false⟩,
         ⟨"000 A.txt".toList, true, false, true⟩]
        0 10 3 none (fun _ => "abcdef123456".toList) 0 =
      ([⟨"1 A.txt".toList, true, false, true⟩], 1) ∧
    (([⟨"1 A.txt".toList, true, false, false⟩,
       ⟨"000 A.txt".toList, true, false, true⟩] : List Ent).map
        Ent.name).count "000 A.txt".toList = 1 ∧
    (([⟨"1 A.txt".toList, true, false, true⟩] : List Ent).map
        Ent.name).count "000 A.txt".toList = 0 := by
  refine ⟨?_, ?_, ?_⟩ <;> decide

/-!
## Directory-tree model (folders mode)

A node of the directory tree carries a stable identifier (standing for
the inode / original absolute path, used to trace which node a rename
touched), its current base name and the scandir attributes.  The
recursive walks of `renum.py` terminate on finite trees; they are
modelled with an explicit fuel parameter bounding the recursion depth,
and theorems about complete runs carry a `deepEnough` hypothesis. -/

structure DInfo where
  id : Nat
  name : PyStr
  isDir : Bool
  symlink : Bool
  hidden : Bool
deriving DecidableEq, Repr

inductive FsT where
  | node : DInfo → List FsT → FsT

def FsT.info : FsT → DInfo
  | .node i _ => i

def FsT.children : FsT → List FsT
  | .node _ ch => ch

/-- Rename the root entry of a subtree (its identifier, attributes and
children are untouched — `os.replace` moves the directory). -/
def renameTop (t : FsT) (n : PyStr) : FsT :=
  .node { t.info with name := n } t.children

/-- The scanner filter of `iter_visible_dirs` as a predicate on a child
node. -/
def visDir (c : FsT) : Bool :=
  c.info.isDir ∧ ¬ c.info.symlink ∧ c.info.name ≠ lockDirName ∧
    ¬ c.info.hidden

/-- `iter_visible_dirs` on a tree node's children: filter then sort. -/
def visibleDirChildren (ch : List FsT) : List FsT :=
  sortByKey (fun c => sortKey c.info.name) (ch.filter visDir)

/-- `enumerate_dirs_preorder` (renum.py lines 332-344) yielding
`(parent id, node id, base)` triples, the shape `plan_folders`
consumes. -/
def preorderItemsF : Nat → FsT → List (Nat × Nat × PyStr)
  | 0, _ => []
  | fuel + 1, t =>
    (visibleDirChildren t.children).flatMap
      (fun c => (t.info.id, c.info.id, c.info.name) :: preorderItemsF fuel c)

/-- The `os.DirEntry` view of a child node (non-directories are listed as
files; `check_conflicts_dir` only looks at name, symlink and hidden). -/
def entOf (c : FsT) : Ent :=
  ⟨c.info.name, ¬ c.info.isDir, c.info.symlink, c.info.hidden⟩

/-- Locate the node with a given identifier (the read-only `os.scandir`
of an absolute path). -/
def findNodeF : Nat → FsT → Nat → Option FsT
  | 0, _, _ => none
  | fuel + 1, t, pid =>
    if t.info.id = pid then some t
    else
      (t.children.map (fun c => findNodeF fuel c pid)).foldl
        (fun a b => a.orElse (fun _ => b)) none

/-- The listing `check_conflicts_dir` reads for a parent directory. -/
def treeListingOf (fuel : Nat) (t : FsT) (pid : Nat) : List Ent :=
  match findNodeF fuel t pid with
  | some s => s.children.map entOf
  | none => []

/-- `plan_folders` run against a tree: recursive mode scans the full
preorder, flat mode only the root's visible children
(renum.py lines 351-354). -/
def planFoldersTree (fuel : Nat) (t : FsT) (recursive : Bool)
    (start step : Int) (width : Nat) (tmpOr : Nat → PyStr) :
    Except Unit (List DirPlanM × Nat) :=
  let items := if recursive then preorderItemsF fuel t
    else (visibleDirChildren t.children).map
      (fun c => (t.info.id, c.info.id, c.info.name))
  planFolders (treeListingOf fuel t) items start step width tmpOr

/-- One recorded rename call: the identifier of the moved node, its name
before and after. -/
structure Ev where
  id : Nat
  src : PyStr
  dst : PyStr
deriving DecidableEq, Repr

/-- The per-child step of `stage_under` (renum.py lines 459-471): first
stage the child's own subtree, then — when the child is a planned
original — rename it to its temporary name. -/
def stageChild (planned : Nat → Option PyStr)
    (stageRec : FsT → FsT × List Ev) (c : FsT) : FsT × List Ev :=
  let r := stageRec c
  match planned c.info.id with
  | some tmp => (renameTop r.1 tmp, r.2 ++ [⟨c.info.id, c.info.name, tmp⟩])
  | none => r

/-- `stage_dirs` (renum.py lines 454-473): walk the visible directories
in sorted order, staging each subtree depth-first (children strictly
before their parent); `planned` maps a node identifier (= the original
absolute path key of `planned_by_abs`) to its temporary name. -/
def stageDirsF (planned : Nat → Option PyStr) : Nat → FsT → FsT × List Ev
  | 0, t => (t, [])
  | fuel + 1, t =>
    let newCh := t.children.map (fun c =>
      if visDir c then (stageChild planned (stageDirsF planned fuel) c).1
      else c)
    let trace := (visibleDirChildren t.children).flatMap
      (fun c => (stageChild planned (stageDirsF planned fuel) c).2)
    (.node t.info newCh, trace)

/-- The filter `commit_dirs`/`rollback_dirs` apply to a scandir entry
(renum.py lines 480-484): a non-symlink directory other than the lock
marker — hidden ones included. -/
def commitOk (c : FsT) : Bool :=
  c.info.isDir ∧ ¬ c.info.symlink ∧ c.info.name ≠ lockDirName

/-- The rename pass of `commit_dirs`/`rollback_dirs` on one entry:
rename it when its current name is a key of `mapping`. -/
def commitPass1 (mapping : List (PyStr × PyStr)) (c : FsT) : FsT × List Ev :=
  if commitOk c then
    match mapping.lookup c.info.name with
    | some dst => (renameTop c dst, [⟨c.info.id, c.info.name, dst⟩])
    | none => (c, [])
  else (c, [])

/-- The shared shape of `commit_dirs` and the passes of `rollback_dirs`
(renum.py lines 476-530): in each directory first rename every matching
entry, then re-scan and recurse into every remaining directory entry;
renames run top-down, so a parent moves strictly before anything inside
it. -/
def scanRenameF (mapping : List (PyStr × PyStr)) : Nat → FsT → FsT × List Ev
  | 0, t => (t, [])
  | fuel + 1, t =>
    let ch1 := t.children.map (fun c => (commitPass1 mapping c).1)
    let step2 : FsT → FsT × List Ev := fun c =>
      if commitOk c then scanRenameF mapping fuel c else (c, [])
    (.node t.info (ch1.map (fun c => (step2 c).1)),
     t.children.flatMap (fun c => (commitPass1 mapping c).2) ++
       ch1.flatMap (fun c => (step2 c).2))

/-- The recursion step of `scanRenameF` on one (already renamed) entry,
as a standalone function for the ordering lemmas. -/
def scanStep2 (mapping : List (PyStr × PyStr)) (fuel : Nat) (c : FsT) :
    FsT × List Ev :=
  if commitOk c then scanRenameF mapping fuel c else (c, [])

theorem scanRenameF_succ (mapping : List (PyStr × PyStr)) (fuel : Nat)
    (t : FsT) :
    scanRenameF mapping (fuel + 1) t =
      (.node t.info
        ((t.children.map (fun c => (commitPass1 mapping c).1)).map
          (fun c => (scanStep2 mapping fuel c).1)),
       t.children.flatMap (fun c => (commitPass1 mapping c).2) ++
         (t.children.map (fun c => (commitPass1 mapping c).1)).flatMap
           (fun c => (scanStep2 mapping fuel c).2)) := rfl

/-- The per-child step of `stageDirsF`, standalone. -/
def stageStep (planned : Nat → Option PyStr) (fuel : Nat) (c : FsT) :
    FsT × List Ev :=
  stageChild planned (stageDirsF planned fuel) c

theorem stageDirsF_succ (planned : Nat → Option PyStr) (fuel : Nat)
    (t : FsT) :
    stageDirsF planned (fuel + 1) t =
      (.node t.info (t.children.map (fun c =>
        if visDir c then (stageStep planned fuel c).1 else c)),
       (visibleDirChildren t.children).flatMap
         (fun c => (stageStep planned fuel c).2)) := rfl

/-- `commit_dirs` (renum.py lines 476-498). -/
def commitDirsF (dplans : List DirPlanM) (fuel : Nat) (t : FsT) :
    FsT × List Ev :=
  scanRenameF
    (dplans.foldl (fun m dp => assocUpsert dp.tmpBase dp.finalBase m) [])
    fuel t

/-- `rollback_dirs` (renum.py lines 501-530): pass final → tmp, then
pass tmp → old (individual restore errors are caught and skipped; the
model records the attempted renames). -/
def rollbackDirsF (dplans : List DirPlanM) (fuel : Nat) (t : FsT) :
    FsT × List Ev :=
  if dplans.isEmpty then (t, [])
  else
    let finalToTmp := dplans.foldl
      (fun m dp => assocUpsert dp.finalBase dp.tmpBase m) []
    let tmpToOld := dplans.foldl
      (fun m dp => assocUpsert dp.tmpBase dp.oldBase m) []
    let r1 := scanRenameF finalToTmp fuel t
    let r2 := scanRenameF tmpToOld fuel r1.1
    (r2.1, r1.2 ++ r2.2)

/-- All node identifiers of a tree, down to the fuel bound. -/
def idsF : Nat → FsT → List Nat
  | 0, _ => []
  | fuel + 1, t => t.info.id :: t.children.flatMap (idsF fuel)

/-- `deepEnough fuel t` states the fuel bound covers the whole tree, so
the fuel-indexed walks behave exactly like the unbounded Python
recursions. -/
def deepEnough : Nat → FsT → Bool
  | 0, _ => false
  | fuel + 1, t => t.children.all (deepEnough fuel)

/-- `s` is a subtree of `t` (reflexively, through child edges). -/
inductive SubtreeOf : FsT → FsT → Prop where
  | refl (t : FsT) : SubtreeOf t t
  | child {t : FsT} {c s : FsT} : c ∈ t.children → SubtreeOf c s →
      SubtreeOf t s

/-- The identifier `x` occurs somewhere in `t`. -/
def OccursIn (t : FsT) (x : Nat) : Prop :=
  ∃ s, SubtreeOf t s ∧ s.info.id = x

/-- Node `a` is a strict ancestor of node `d` in `t`: some subtree rooted
at id `a` has `d` occurring strictly inside it. -/
def StrictBelow (t : FsT) (a d : Nat) : Prop :=
  ∃ s, SubtreeOf t s ∧ s.info.id = a ∧ ∃ c ∈ s.children, OccursIn c d

/-- One observable filesystem effect of `run_folders`: lock handling
(`acquire_lock` / `release_lock`) and the individual renames. -/
inductive Fx where
  | mkdirLock
  | writePid
  | hideLock
  | rmPid
  | rmdirLock
  | rename (id : Nat) (src dst : PyStr)
deriving DecidableEq, Repr

/-- `run_folders` (renum.py lines 599-621) as an effect trace.
`acquire_lock` runs unconditionally *before* the dry-run check: it
creates the lock directory, writes `pid.txt` and marks the directory
hidden; `release_lock` (the `finally` block) removes the pid file and
the directory on every path.  A pre-existing lock raises before any
effect.  In dry-run mode (or without `--go`) the run plans and prints
but performs no rename; in go mode it stages and commits (the
no-failure path; failure injection for files mode is modelled in
`runFilesGo`). -/
def runFoldersTrace (fuel : Nat) (t : FsT) (start step : Int) (width : Nat)
    (recursive dryRun go : Bool) (tmpOr : Nat → PyStr) :
    List Fx × Except Unit Int :=
  if t.children.any (fun c => c.info.name = lockDirName) then ([], .error ())
  else
    let acq := [Fx.mkdirLock, Fx.writePid, Fx.hideLock]
    let rel := [Fx.rmPid, Fx.rmdirLock]
    match planFoldersTree fuel t recursive start step width tmpOr with
    | .error e => (acq ++ rel, .error e)
    | .ok (plans, _checked) =>
      if dryRun ∨ ¬ go then (acq ++ rel, .ok 0)
      else
        let planned := fun nid =>
          (plans.find? (fun dp => dp.origId = nid)).map (·.tmpBase)
        let r1 := stageDirsF planned fuel t
        let r2 := commitDirsF plans fuel r1.1
        (acq ++ (r1.2 ++ r2.2).map (fun ev => Fx.rename ev.id ev.src ev.dst)
          ++ rel, .ok 0)

/-!
## Trace-ordering machinery (claim C2)
-/

/-- Every event for node `x` strictly precedes every event for node `y`
in the trace `l`. -/
def Precedes (l : List Ev) (x y : Nat) : Prop :=
  ∀ (i j : Nat) (ex ey : Ev), l[i]? = some ex → ex.id = x →
    l[j]? = some ey → ey.id = y → i < j

/-- No event of `l` touches node `x`. -/
def NoId (l : List Ev) (x : Nat) : Prop :=
  ∀ ev ∈ l, ev.id ≠ x

theorem noId_append {X Y : List Ev} {x : Nat} (hX : NoId X x)
    (hY : NoId Y x) : NoId (X ++ Y) x := by
  intro ev hmem
  rcases List.mem_append.mp hmem with h | h
  · exact hX ev h
  · exact hY ev h

theorem noId_flatMap {l : List α} {f : α → List Ev} {x : Nat}
    (h : ∀ c ∈ l, NoId (f c) x) : NoId (l.flatMap f) x := by
  intro ev hmem
  rw [List.mem_flatMap] at hmem
  obtain ⟨c, hc, hev⟩ := hmem
  exact h c hc ev hev

theorem precedes_of_split {l X Y : List Ev} {x y : Nat} (hl : l = X ++ Y)
    (hXy : NoId X y) (hYx : NoId Y x) : Precedes l x y := by
  intro i j ex ey hi hx hj hy
  have hiX : i < X.length := by
    by_contra hc
    push_neg at hc
    rw [hl, List.getElem?_append_right hc] at hi
    exact hYx ex (List.getElem?_mem hi) hx
  have hjY : X.length ≤ j := by
    by_contra hc
    push_neg at hc
    rw [hl, List.getElem?_append_left hc] at hj
    exact hXy ey (List.getElem?_mem hj) hy
  omega

theorem precedes_confined {l X B Y : List Ev} {x y : Nat}
    (hl : l = X ++ B ++ Y) (hXx : NoId X x) (hXy : NoId X y)
    (hYx : NoId Y x) (hYy : NoId Y y) (hB : Precedes B x y) :
    Precedes l x y := by
  intro i j ex ey hi hx hj hy
  have hiL : X.length ≤ i := by
    by_contra hc
    push_neg at hc
    rw [hl, List.append_assoc, List.getElem?_append_left hc] at hi
    exact hXx ex (List.getElem?_mem hi) hx
  have hiR : i < X.length + B.length := by
    by_contra hc
    push_neg at hc
    rw [hl, List.getElem?_append_right (by simpa using hc)] at hi
    exact hYx ex (List.getElem?_mem hi) hx
  have hjL : X.length ≤ j := by
    by_contra hc
    push_neg at hc
    rw [hl, List.append_assoc, List.getElem?_append_left hc] at hj
    exact hXy ey (List.getElem?_mem hj) hy
  have hjR : j < X.length + B.length := by
    by_contra hc
    push_neg at hc
    rw [hl, List.getElem?_append_right (by simpa using hc)] at hj
    exact hYy ey (List.getElem?_mem hj) hy
  have hi' : B[i - X.length]? = some ex := by
    rw [hl, List.append_assoc, List.getElem?_append_right hiL,
      List.getElem?_append_left (by omega)] at hi
    exact hi
  have hj' : B[j - X.length]? = some ey := by
    rw [hl, List.append_assoc, List.getElem?_append_right hjL,
      List.getElem?_append_left (by omega)] at hj
    exact hj
  have := hB (i - X.length) (j - X.length) ex ey hi' hx hj' hy
  omega

theorem precedes_of_noId_left {l : List Ev} {x y : Nat} (h : NoId l x) :
    Precedes l x y := by
  intro i j ex ey hi hx _ _
  exact absurd hx (h ex (List.getElem?_mem hi))

theorem precedes_of_noId_right {l : List Ev} {x y : Nat} (h : NoId l y) :
    Precedes l x y := by
  intro i j ex ey _ _ hj hy
  exact absurd hy (h ey (List.getElem?_mem hj))

/-!
## Sorting and flatMap lemmas
-/

theorem mem_insertByKey {key : α → PyStr} {x a : α} :
    ∀ {l : List α}, x ∈ insertByKey key a l ↔ x = a ∨ x ∈ l := by
  intro l
  induction l with
  | nil => simp [insertByKey]
  | cons y ys ih =>
    rw [insertByKey]
    by_cases hk : keyLe (key y) (key a) = true
    · rw [if_pos hk]
      simp only [List.mem_cons, ih]
      tauto
    · rw [if_neg hk]
      simp only [List.mem_cons]

theorem insertByKey_perm (key : α → PyStr) (a : α) :
    ∀ l : List α, (insertByKey key a l).Perm (a :: l) := by
  intro l
  induction l with
  | nil => simp [insertByKey]
  | cons y ys ih =>
    rw [insertByKey]
    by_cases hk : keyLe (key y) (key a) = true
    · rw [if_pos hk]
      exact (ih.cons y).trans (List.Perm.swap a y ys)
    · rw [if_neg hk]

theorem sortByKey_fold_perm (key : α → PyStr) :
    ∀ (l acc : List α),
      (l.foldl (fun acc x => insertByKey key x acc) acc).Perm (acc ++ l) := by
  intro l
  induction l with
  | nil =>
    intro acc
    simp
  | cons x xs ih =>
    intro acc
    rw [List.foldl_cons]
    refine (ih (insertByKey key x acc)).trans ?_
    have h1 : (insertByKey key x acc ++ xs).Perm ((x :: acc) ++ xs) :=
      (insertByKey_perm key x acc).append_right xs
    refine h1.trans ?_
    simpa using List.perm_middle.symm

theorem sortByKey_perm (key : α → PyStr) (l : List α) :
    (sortByKey key l).Perm l := by
  simpa [sortByKey] using sortByKey_fold_perm key l []

theorem mem_sortByKey {key : α → PyStr} {l : List α} {x : α} :
    x ∈ sortByKey key l ↔ x ∈ l :=
  (sortByKey_perm key l).mem_iff

theorem mem_visibleDirChildren {ch : List FsT} {c : FsT}
    (h : c ∈ visibleDirChildren ch) : c ∈ ch ∧ visDir c = true := by
  have := mem_sortByKey.mp h
  exact ⟨(List.mem_filter.mp this).1, (List.mem_filter.mp this).2⟩

theorem nodup_flatMap_part {g : α → List β} [DecidableEq β] :
    ∀ {l : List α} {c : α}, (l.flatMap g).Nodup → c ∈ l → (g c).Nodup := by
  intro l
  induction l with
  | nil =>
    intro c _ h
    cases h
  | cons x xs ih =>
    intro c hnd hmem
    rw [List.flatMap_cons, List.nodup_append] at hnd
    rcases List.mem_cons.mp hmem with rfl | hmem'
    · exact hnd.1
    · exact ih hnd.2.1 hmem'

theorem nodup_flatMap_disjoint {g : α → List β} [DecidableEq β]
    {u v : List α} {c : α} (hnd : ((u ++ c :: v).flatMap g).Nodup) :
    (∀ x ∈ u, ∀ b ∈ g x, b ∉ g c) ∧ (∀ x ∈ v, ∀ b ∈ g c, b ∉ g x) := by
  rw [List.flatMap_append, List.flatMap_cons, List.nodup_append] at hnd
  obtain ⟨hu, hrest, hdis⟩ := hnd
  rw [List.nodup_append] at hrest
  obtain ⟨hc, hv, hdis2⟩ := hrest
  constructor
  · intro x hx b hb hbc
    exact hdis (List.mem_flatMap.mpr ⟨x, hx, hb⟩) (List.mem_append_left _ hbc)
  · intro x hx b hb hbx
    exact hdis2 hb (List.mem_flatMap.mpr ⟨x, hx, hbx⟩)

theorem count_le_one_of_nodup_flatMap {g : α → List β} [DecidableEq α]
    [DecidableEq β] {l : List α} {c : α} (hnd : (l.flatMap g).Nodup)
    (hne : g c ≠ []) : l.count c ≤ 1 := by
  by_contra h
  push_neg at h
  obtain ⟨b, hb⟩ : ∃ b, b ∈ g c := by
    cases hg : g c with
    | nil => exact absurd hg hne
    | cons b bs => exact ⟨b, hg ▸ List.mem_cons_self b bs⟩
  obtain ⟨u, v, huv⟩ := List.append_of_mem (List.count_pos_iff_mem.mp
    (by omega : 0 < l.count c))
  subst huv
  have hcv : c ∈ u ∨ c ∈ v := by
    rw [List.count_append, List.count_cons_self] at h
    by_contra hno
    push_neg at hno
    rw [List.count_eq_zero_of_not_mem hno.1,
      List.count_eq_zero_of_not_mem hno.2] at h
    omega
  have hdis := nodup_flatMap_disjoint (g := g) hnd
  rcases hcv with hcu | hcv
  · exact hdis.1 c hcu b hb hb
  · exact hdis.2 c hcv b hb hb

/-!
## Identifier lemmas
-/

theorem renameTop_children (t : FsT) (n : PyStr) :
    (renameTop t n).children = t.children := by
  cases t
  rfl

theorem renameTop_id (t : FsT) (n : PyStr) :
    (renameTop t n).info.id = t.info.id := by
  cases t
  rfl

theorem idsF_renameTop (f : Nat) (t : FsT) (n : PyStr) :
    idsF f (renameTop t n) = idsF f t := by
  cases f with
  | zero => rfl
  | succ g =>
    cases t
    rfl

theorem deepEnough_renameTop (f : Nat) (t : FsT) (n : PyStr) :
    deepEnough f (renameTop t n) = deepEnough f t := by
  cases f with
  | zero => rfl
  | succ g =>
    cases t
    rfl

theorem commitPass1_children (m : List (PyStr × PyStr)) (c : FsT) :
    (commitPass1 m c).1.children = c.children := by
  rw [commitPass1]
  by_cases h : commitOk c = true
  · rw [if_pos h]
    cases hl : m.lookup c.info.name
    · rfl
    · exact renameTop_children c _
  · rw [if_neg h]

theorem commitPass1_id (m : List (PyStr × PyStr)) (c : FsT) :
    (commitPass1 m c).1.info.id = c.info.id := by
  rw [commitPass1]
  by_cases h : commitOk c = true
  · rw [if_pos h]
    cases hl : m.lookup c.info.name
    · rfl
    · exact renameTop_id c _
  · rw [if_neg h]

theorem idsF_commitPass1 (m : List (PyStr × PyStr)) (f : Nat) (c : FsT) :
    idsF f (commitPass1 m c).1 = idsF f c := by
  rw [commitPass1]
  by_cases h : commitOk c = true
  · rw [if_pos h]
    cases hl : m.lookup c.info.name
    · rfl
    · exact idsF_renameTop f c _
  · rw [if_neg h]

theorem deepEnough_commitPass1 (m : List (PyStr × PyStr)) (f : Nat) (c : FsT) :
    deepEnough f (commitPass1 m c).1 = deepEnough f c := by
  rw [commitPass1]
  by_cases h : commitOk c = true
  · rw [if_pos h]
    cases hl : m.lookup c.info.name
    · rfl
    · exact deepEnough_renameTop f c _
  · rw [if_neg h]

theorem commitPass1_ev {m : List (PyStr × PyStr)} {c : FsT} {ev : Ev}
    (h : ev ∈ (commitPass1 m c).2) : ev.id = c.info.id := by
  rw [commitPass1] at h
  by_cases hc : commitOk c = true
  · rw [if_pos hc] at h
    cases hl : m.lookup c.info.name with
    | none =>
      rw [hl] at h
      cases h
    | some dst =>
      rw [hl] at h
      rcases List.mem_singleton.mp h with rfl
      rfl
  · rw [if_neg hc] at h
    cases h

theorem mem_idsF_of_child {c : FsT} {t : FsT} {x : Nat} (hc : c ∈ t.children)
    (hx : x ∈ idsF f c) : x ∈ idsF (f + 1) t := by
  rw [idsF]
  exact List.mem_cons_of_mem _ (List.mem_flatMap.mpr ⟨c, hc, hx⟩)

theorem deepEnough_child {t c : FsT} {f : Nat}
    (hdeep : deepEnough (f + 1) t = true) (hc : c ∈ t.children) :
    deepEnough f c = true := by
  rw [deepEnough, List.all_eq_true] at hdeep
  exact hdeep c hc

theorem fuel_pos_of_child {t c : FsT} {f : Nat}
    (hdeep : deepEnough (f + 1) t = true) (hc : c ∈ t.children) :
    ∃ g, f = g + 1 := by
  cases f with
  | zero =>
    have := deepEnough_child hdeep hc
    rw [deepEnough] at this
    cases this
  | succ g => exact ⟨g, rfl⟩

theorem subtreeOf_trans : ∀ {x y z : FsT}, SubtreeOf x y → SubtreeOf y z →
    SubtreeOf x z := by
  intro x y z hxy
  induction hxy with
  | refl _ =>
    intro h
    exact h
  | child hc _ ih =>
    intro h
    exact .child hc (ih h)

theorem ids_complete : ∀ {f : Nat} {t s : FsT}, deepEnough f t = true →
    SubtreeOf t s → s.info.id ∈ idsF f t := by
  intro f t s hdeep hsub
  induction hsub generalizing f with
  | refl t =>
    cases f with
    | zero =>
      rw [deepEnough] at hdeep
      cases hdeep
    | succ g =>
      rw [idsF]
      exact List.mem_cons_self _ _
  | child hc _ ih =>
    cases f with
    | zero =>
      rw [deepEnough] at hdeep
      cases hdeep
    | succ g =>
      exact mem_idsF_of_child hc (ih (deepEnough_child hdeep hc))

theorem head_not_in_descIds {f : Nat} {t : FsT}
    (hnd : (idsF (f + 1) t).Nodup) :
    t.info.id ∉ t.children.flatMap (idsF f) := by
  rw [idsF] at hnd
  exact (List.nodup_cons.mp hnd).1

theorem nodup_idsF_tail {f : Nat} {t : FsT} (hnd : (idsF (f + 1) t).Nodup) :
    (t.children.flatMap (idsF f)).Nodup := by
  rw [idsF] at hnd
  exact (List.nodup_cons.mp hnd).2

/-!
## Trace identifier lemmas
-/

theorem scan_trace_ids (m : List (PyStr × PyStr)) :
    ∀ (f : Nat) (t : FsT), deepEnough f t = true →
      ∀ ev ∈ (scanRenameF m f t).2, ∃ c ∈ t.children, ev.id ∈ idsF (f - 1) c := by
  intro f
  induction f with
  | zero =>
    intro t _ ev hev
    rw [scanRenameF] at hev
    cases hev
  | succ f ih =>
    intro t hdeep ev hev
    rw [scanRenameF_succ] at hev
    rcases List.mem_append.mp hev with h1 | h2
    · obtain ⟨c, hc, hevc⟩ := List.mem_flatMap.mp h1
      obtain ⟨g, rfl⟩ := fuel_pos_of_child hdeep hc
      refine ⟨c, hc, ?_⟩
      rw [commitPass1_ev hevc]
      simp only [Nat.add_sub_cancel]
      rw [idsF]
      exact List.mem_cons_self _ _
    · obtain ⟨c1, hc1, hevc⟩ := List.mem_flatMap.mp h2
      obtain ⟨c, hc, rfl⟩ := List.mem_map.mp hc1
      rw [scanStep2] at hevc
      by_cases hok : commitOk (commitPass1 m c).1 = true
      · rw [if_pos hok] at hevc
        obtain ⟨g, rfl⟩ := fuel_pos_of_child hdeep hc
        have hdc : deepEnough (g + 1) (commitPass1 m c).1 = true := by
          rw [deepEnough_commitPass1]
          exact deepEnough_child hdeep hc
        obtain ⟨gc, hgc, hid⟩ := ih (commitPass1 m c).1 hdc ev hevc
        rw [commitPass1_children] at hgc
        refine ⟨c, hc, ?_⟩
        simp only [Nat.add_sub_cancel]
        cases g with
        | zero =>
          have := deepEnough_child (deepEnough_child hdeep hc) hgc
          rw [deepEnough] at this
          cases this
        | succ g' =>
          exact mem_idsF_of_child hgc (by simpa using hid)
      · rw [if_neg hok] at hevc
        cases hevc

theorem stage_trace_ids (p : Nat → Option PyStr) :
    ∀ (f : Nat) (t : FsT), deepEnough f t = true →
      ∀ ev ∈ (stageDirsF p f t).2, ∃ c ∈ t.children, ev.id ∈ idsF (f - 1) c := by
  intro f
  induction f with
  | zero =>
    intro t _ ev hev
    rw [stageDirsF] at hev
    cases hev
  | succ f ih =>
    intro t hdeep ev hev
    rw [stageDirsF_succ] at hev
    obtain ⟨c, hcv, hevc⟩ := List.mem_flatMap.mp hev
    obtain ⟨hc, _⟩ := mem_visibleDirChildren hcv
    obtain ⟨g, rfl⟩ := fuel_pos_of_child hdeep hc
    refine ⟨c, hc, ?_⟩
    simp only [Nat.add_sub_cancel]
    rw [stageStep, stageChild] at hevc
    have hinner : ∀ ev' ∈ (stageDirsF p (g + 1) c).2, ev'.id ∈ idsF (g + 1) c := by
      intro ev' hev'
      obtain ⟨gc, hgc, hid⟩ := ih c (deepEnough_child hdeep hc) ev' hev'
      cases g with
      | zero =>
        have := deepEnough_child (deepEnough_child hdeep hc) hgc
        rw [deepEnough] at this
        cases this
      | succ g' =>
        exact mem_idsF_of_child hgc (by simpa using hid)
    cases hp : p c.info.id with
    | none =>
      rw [hp] at hevc
      exact hinner ev hevc
    | some tmp =>
      rw [hp] at hevc
      rcases List.mem_append.mp hevc with hin | hown
      · exact hinner ev hin
      · rcases List.mem_singleton.mp hown with rfl
        rw [idsF]
        exact List.mem_cons_self _ _

theorem scan_block_ids {m : List (PyStr × PyStr)} {g : Nat} {x : FsT}
    (hdx : deepEnough (g + 1) x = true) :
    ∀ ev ∈ (scanStep2 m (g + 1) (commitPass1 m x).1).2,
      ev.id ∈ x.children.flatMap (idsF g) := by
  intro ev hev
  rw [scanStep2] at hev
  by_cases hok : commitOk (commitPass1 m x).1 = true
  · rw [if_pos hok] at hev
    have hdx1 : deepEnough (g + 1) (commitPass1 m x).1 = true := by
      rw [deepEnough_commitPass1]
      exact hdx
    obtain ⟨gc, hgc, hid⟩ := scan_trace_ids m (g + 1) _ hdx1 ev hev
    rw [commitPass1_children] at hgc
    exact List.mem_flatMap.mpr ⟨gc, hgc, by simpa using hid⟩
  · rw [if_neg hok] at hev
    cases hev

theorem stage_inner_ids {p : Nat → Option PyStr} {g : Nat} {x : FsT}
    (hdx : deepEnough (g + 1) x = true) :
    ∀ ev ∈ (stageDirsF p (g + 1) x).2,
      ev.id ∈ x.children.flatMap (idsF g) := by
  intro ev hev
  obtain ⟨gc, hgc, hid⟩ := stage_trace_ids p (g + 1) x hdx ev hev
  exact List.mem_flatMap.mpr ⟨gc, hgc, by simpa using hid⟩

theorem stage_block_split (p : Nat → Option PyStr) (f : Nat) (c : FsT) :
    (stageStep p f c).2 =
      (stageDirsF p f c).2 ++
        (match p c.info.id with
         | some tmp => [⟨c.info.id, c.info.name, tmp⟩]
         | none => ([] : List Ev)) := by
  rw [stageStep, stageChild]
  cases hp : p c.info.id with
  | none => simp
  | some tmp => simp

theorem exists_child_sub {c s : FsT} (hsub : SubtreeOf c s) {c0 : FsT}
    (hc0 : c0 ∈ s.children) {sd : FsT} (hsubd : SubtreeOf c0 sd) :
    ∃ cc ∈ c.children, SubtreeOf cc sd := by
  cases hsub with
  | refl _ => exact ⟨c0, hc0, hsubd⟩
  | child hc' hsub₂ =>
    exact ⟨_, hc', subtreeOf_trans hsub₂ (.child hc0 hsubd)⟩

theorem ne_root_of_tail {g : Nat} {c : FsT} (hndc : (idsF (g + 1) c).Nodup)
    {x : Nat} (hx : x ∈ c.children.flatMap (idsF g)) : x ≠ c.info.id :=
  fun he => head_not_in_descIds hndc (he ▸ hx)

theorem mem_tail_of_child_sub {g : Nat} {c cc sd : FsT}
    (hdc : deepEnough (g + 1) c = true) (hcc : cc ∈ c.children)
    (hsub : SubtreeOf cc sd) :
    sd.info.id ∈ c.children.flatMap (idsF g) :=
  List.mem_flatMap.mpr ⟨cc, hcc, ids_complete (deepEnough_child hdc hcc) hsub⟩

theorem mem_idsF_self {g : Nat} (x : FsT) :
    x.info.id ∈ idsF (g + 1) x := by
  rw [idsF]
  exact List.mem_cons_self _ _

/-- Commit/rollback ordering: in a `scanRenameF` pass over a tree with
unique identifiers and sufficient fuel, every rename of a node strictly
precedes every rename of any node strictly below it (the pass renames a
directory before re-scanning and descending into it). -/
theorem scan_precedes (m : List (PyStr × PyStr)) :
    ∀ (f : Nat) (t : FsT) (a d : Nat), deepEnough f t = true →
      (idsF f t).Nodup → StrictBelow t a d →
      Precedes (scanRenameF m f t).2 a d := by
  intro f
  induction f with
  | zero =>
    intro t a d _ _ _ i j ex ey hi hx hj hy
    rw [scanRenameF] at hi
    simp at hi
  | succ f ih =>
    intro t a d hdeep hnd hbelow
    obtain ⟨s, hsub, hsa, c0, hc0, hocc⟩ := hbelow
    obtain ⟨sd, hsubd, hsdid⟩ := hocc
    cases hsub with
    | refl _ =>
      refine precedes_of_noId_left ?_
      intro ev hev hida
      obtain ⟨c, hc, hid⟩ := scan_trace_ids m (f + 1) t hdeep ev hev
      apply head_not_in_descIds hnd
      rw [hsa, ← hida]
      exact List.mem_flatMap.mpr ⟨c, hc, by simpa using hid⟩
    | child hc hsub' =>
      rename_i c
      obtain ⟨g, rfl⟩ := fuel_pos_of_child hdeep hc
      have hdc : deepEnough (g + 1) c = true := deepEnough_child hdeep hc
      have hndtail := nodup_idsF_tail hnd
      have hndc : (idsF (g + 1) c).Nodup :=
        nodup_flatMap_part hndtail hc
      -- a and d both live in c's subtree; d strictly below c's root
      have hain : a ∈ idsF (g + 1) c := hsa ▸ ids_complete hdc hsub'
      obtain ⟨cc, hcc, hsubcc⟩ := exists_child_sub hsub' hc0 hsubd
      have hdtail : d ∈ c.children.flatMap (idsF g) :=
        hsdid ▸ mem_tail_of_child_sub hdc hcc hsubcc
      have hdin : d ∈ idsF (g + 1) c := by
        rw [idsF]
        exact List.mem_cons_of_mem _ hdtail
      have hdnec : d ≠ c.info.id := ne_root_of_tail hndc hdtail
      -- split the children at (the unique occurrence of) c
      obtain ⟨u, v, hk⟩ := List.append_of_mem hc
      rw [hk] at hndtail
      have hdis := nodup_flatMap_disjoint hndtail
      -- region id bounds
      have hxid : ∀ x ∈ t.children, ∀ b,
          b ∈ (commitPass1 m x).2 → b.id ∈ idsF (g + 1) x := by
        intro x hx b hb
        rw [commitPass1_ev hb]
        exact mem_idsF_self x
      have hxblk : ∀ x ∈ t.children, ∀ b,
          b ∈ (scanStep2 m (g + 1) (commitPass1 m x).1).2 →
          b.id ∈ idsF (g + 1) x := by
        intro x hx b hb
        have hdx : deepEnough (g + 1) x = true := deepEnough_child hdeep hx
        rw [idsF]
        exact List.mem_cons_of_mem _ (scan_block_ids hdx b hb)
      have huNo : ∀ z ∈ idsF (g + 1) c, ∀ x ∈ u,
          NoId ((commitPass1 m x).2 ++
            (scanStep2 m (g + 1) (commitPass1 m x).1).2) z := by
        intro z hz x hxu ev hev heq
        have hxch : x ∈ t.children := by
          rw [hk]
          exact List.mem_append_left _ hxu
        have hevid : ev.id ∈ idsF (g + 1) x := by
          rcases List.mem_append.mp hev with h | h
          · exact hxid x hxch ev h
          · exact hxblk x hxch ev h
        exact hdis.1 x hxu ev.id hevid (heq ▸ hz)
      have hvNo : ∀ z ∈ idsF (g + 1) c, ∀ x ∈ v,
          NoId ((commitPass1 m x).2 ++
            (scanStep2 m (g + 1) (commitPass1 m x).1).2) z := by
        intro z hz x hxv ev hev heq
        have hxch : x ∈ t.children := by
          rw [hk]
          exact List.mem_append_right _ (List.mem_cons_of_mem _ hxv)
        have hevid : ev.id ∈ idsF (g + 1) x := by
          rcases List.mem_append.mp hev with h | h
          · exact hxid x hxch ev h
          · exact hxblk x hxch ev h
        exact hdis.2 x hxv z hz (heq ▸ hevid)
      -- the c-block of the recursion phase has no event for c's root
      have hcblk_ne_root : ∀ b ∈ (scanStep2 m (g + 1) (commitPass1 m c).1).2,
          b.id ≠ c.info.id := by
        intro b hb
        exact ne_root_of_tail hndc (scan_block_ids hdc b hb)
      -- abbreviations for the six trace regions
      rw [scanRenameF_succ, hk]
      rw [List.flatMap_append, List.flatMap_cons, List.map_append,
        List.map_cons, List.flatMap_append, List.flatMap_cons]
      -- trace = (U1 ++ (C1 ++ V1)) ++ (U2 ++ (C2 ++ V2))
      have hscen : a = c.info.id ∨ ∃ c', c' ∈ c.children ∧ SubtreeOf c' s := by
        cases hsub' with
        | refl _ => exact Or.inl hsa.symm
        | child hcc' hsub₂ => exact Or.inr ⟨_, hcc', hsub₂⟩
      rcases hscen with hac | ⟨c', hcc', hsub₂⟩
      · -- scenario (i): a is c's own id; its only event is the level
        -- rename of c, d's events are inside the recursion block of c
        refine precedes_of_split
          (X := (u.flatMap (fun x => (commitPass1 m x).2) ++
              ((commitPass1 m c).2 ++
                v.flatMap (fun x => (commitPass1 m x).2))) ++
            (u.map (fun x => (commitPass1 m x).1)).flatMap
              (fun y => (scanStep2 m (g + 1) y).2))
          (Y := (scanStep2 m (g + 1) (commitPass1 m c).1).2 ++
            (v.map (fun x => (commitPass1 m x).1)).flatMap
              (fun y => (scanStep2 m (g + 1) y).2)) ?_ ?_ ?_
        · dsimp only
          simp only [List.append_assoc]
        · -- no d in X
          refine noId_append (noId_append ?_ (noId_append ?_ ?_)) ?_
          · intro ev hev
            obtain ⟨x, hxu, hevx⟩ := List.mem_flatMap.mp hev
            exact huNo d hdin x hxu ev (List.mem_append_left _ hevx)
          · intro ev hev heq
            rw [commitPass1_ev hev] at heq
            exact hdnec heq.symm
          · intro ev hev
            obtain ⟨x, hxv, hevx⟩ := List.mem_flatMap.mp hev
            exact hvNo d hdin x hxv ev (List.mem_append_left _ hevx)
          · intro ev hev
            obtain ⟨y, hyu, hevy⟩ := List.mem_flatMap.mp hev
            obtain ⟨x, hxu, rfl⟩ := List.mem_map.mp hyu
            exact huNo d hdin x hxu ev (List.mem_append_right _ hevy)
        · -- no a in Y
          refine noId_append ?_ ?_
          · intro ev hev heq
            exact hcblk_ne_root ev hev (heq.trans hac)
          · intro ev hev
            obtain ⟨y, hyv, hevy⟩ := List.mem_flatMap.mp hev
            obtain ⟨x, hxv, rfl⟩ := List.mem_map.mp hyv
            exact hvNo a hain x hxv ev (List.mem_append_right _ hevy)
      · -- scenario (ii): a strictly inside c; both a- and d-events are
        -- confined to c's recursion block, where the IH applies
        have hatail : a ∈ c.children.flatMap (idsF g) :=
          hsa ▸ mem_tail_of_child_sub hdc hcc' hsub₂
        have hanec : a ≠ c.info.id := ne_root_of_tail hndc hatail
        refine precedes_confined
          (X := (u.flatMap (fun x => (commitPass1 m x).2) ++
              ((commitPass1 m c).2 ++
                v.flatMap (fun x => (commitPass1 m x).2))) ++
            (u.map (fun x => (commitPass1 m x).1)).flatMap
              (fun y => (scanStep2 m (g + 1) y).2))
          (B := (scanStep2 m (g + 1) (commitPass1 m c).1).2)
          (Y := (v.map (fun x => (commitPass1 m x).1)).flatMap
            (fun y => (scanStep2 m (g + 1) y).2)) ?_ ?_ ?_ ?_ ?_ ?_
        · dsimp only
          simp only [List.append_assoc]
        · -- no a in X
          refine noId_append (noId_append ?_ (noId_append ?_ ?_)) ?_
          · intro ev hev
            obtain ⟨x, hxu, hevx⟩ := List.mem_flatMap.mp hev
            exact huNo a hain x hxu ev (List.mem_append_left _ hevx)
          · intro ev hev heq
            rw [commitPass1_ev hev] at heq
            exact hanec heq.symm
          · intro ev hev
            obtain ⟨x, hxv, hevx⟩ := List.mem_flatMap.mp hev
            exact hvNo a hain x hxv ev (List.mem_append_left _ hevx)
          · intro ev hev
            obtain ⟨y, hyu, hevy⟩ := List.mem_flatMap.mp hev
            obtain ⟨x, hxu, rfl⟩ := List.mem_map.mp hyu
            exact huNo a hain x hxu ev (List.mem_append_right _ hevy)
        · -- no d in X
          refine noId_append (noId_append ?_ (noId_append ?_ ?_)) ?_
          · intro ev hev
            obtain ⟨x, hxu, hevx⟩ := List.mem_flatMap.mp hev
            exact huNo d hdin x hxu ev (List.mem_append_left _ hevx)
          · intro ev hev heq
            rw [commitPass1_ev hev] at heq
            exact hdnec heq.symm
          · intro ev hev
            obtain ⟨x, hxv, hevx⟩ := List.mem_flatMap.mp hev
            exact hvNo d hdin x hxv ev (List.mem_append_left _ hevx)
          · intro ev hev
            obtain ⟨y, hyu, hevy⟩ := List.mem_flatMap.mp hev
            obtain ⟨x, hxu, rfl⟩ := List.mem_map.mp hyu
            exact huNo d hdin x hxu ev (List.mem_append_right _ hevy)
        · -- no a in Y
          intro ev hev
          obtain ⟨y, hyv, hevy⟩ := List.mem_flatMap.mp hev
          obtain ⟨x, hxv, rfl⟩ := List.mem_map.mp hyv
          exact hvNo a hain x hxv ev (List.mem_append_right _ hevy)
        · -- no d in Y
          intro ev hev
          obtain ⟨y, hyv, hevy⟩ := List.mem_flatMap.mp hev
          obtain ⟨x, hxv, rfl⟩ := List.mem_map.mp hyv
          exact hvNo d hdin x hxv ev (List.mem_append_right _ hevy)
        · -- the IH inside c's block
          rw [scanStep2]
          by_cases hok : commitOk (commitPass1 m c).1 = true
          · rw [if_pos hok]
            refine ih (commitPass1 m c).1 a d ?_ ?_ ?_
            · rw [deepEnough_commitPass1]
              exact hdc
            · rw [idsF_commitPass1]
              exact hndc
            · refine ⟨s, .child ?_ hsub₂, hsa, c0, hc0, sd, hsubd, hsdid⟩
              rw [commitPass1_children]
              exact hcc'
          · rw [if_neg hok]
            exact precedes_of_noId_left (fun ev hev => absurd hev
              (List.not_mem_nil ev))

/-- All events of one staged block (`stage_under` on one child) carry
identifiers from that child's subtree. -/
theorem stage_step_ids {p : Nat → Option PyStr} {g : Nat} {x : FsT}
    (hdx : deepEnough (g + 1) x = true) :
    ∀ ev ∈ (stageStep p (g + 1) x).2, ev.id ∈ idsF (g + 1) x := by
  intro ev hev
  rw [stage_block_split] at hev
  rcases List.mem_append.mp hev with hin | hlvl
  · rw [idsF]
    exact List.mem_cons_of_mem _ (stage_inner_ids hdx ev hin)
  · cases hp : p x.info.id with
    | none =>
      rw [hp] at hlvl
      cases hlvl
    | some tmp =>
      rw [hp] at hlvl
      rcases List.mem_singleton.mp hlvl with rfl
      exact mem_idsF_self x

theorem flatMap_sublist {g : α → List β} :
    ∀ {l₁ l₂ : List α}, l₁.Sublist l₂ →
      (l₁.flatMap g).Sublist (l₂.flatMap g) := by
  intro l₁ l₂ h
  induction h with
  | slnil => exact .slnil
  | cons a _ ih =>
    rw [List.flatMap_cons]
    exact ih.trans (List.sublist_append_right _ _)
  | cons₂ a _ ih =>
    rw [List.flatMap_cons, List.flatMap_cons]
    exact ih.append_left _

/-- Restricting a tree's child list to the sorted visible directories
keeps the identifier lists duplicate-free. -/
theorem nodup_flatMap_vis {g : Nat} {t : FsT}
    (hnd : (t.children.flatMap (idsF g)).Nodup) :
    ((visibleDirChildren t.children).flatMap (idsF g)).Nodup := by
  have h1 : ((t.children.filter visDir).flatMap (idsF g)).Nodup :=
    List.Nodup.sublist (flatMap_sublist (List.filter_sublist _)) hnd
  have hperm : ((visibleDirChildren t.children).flatMap (idsF g)).Perm
      ((t.children.filter visDir).flatMap (idsF g)) :=
    List.Perm.flatMap_right _ (sortByKey_perm _ _)
  exact hperm.nodup_iff.mpr h1

/-- Staging ordering: in a `stageDirsF` walk over a tree with unique
identifiers and sufficient fuel, every rename of a node strictly follows
every rename of any node strictly below it (each subtree is staged
depth-first, the parent moving last). -/
theorem stage_precedes (p : Nat → Option PyStr) :
    ∀ (f : Nat) (t : FsT) (a d : Nat), deepEnough f t = true →
      (idsF f t).Nodup → StrictBelow t a d →
      Precedes (stageDirsF p f t).2 d a := by
  intro f
  induction f with
  | zero =>
    intro t a d _ _ _ i j ex ey hi hx hj hy
    rw [stageDirsF] at hi
    simp at hi
  | succ f ih =>
    intro t a d hdeep hnd hbelow
    obtain ⟨s, hsub, hsa, c0, hc0, hocc⟩ := hbelow
    obtain ⟨sd, hsubd, hsdid⟩ := hocc
    cases hsub with
    | refl _ =>
      refine precedes_of_noId_right ?_
      intro ev hev hida
      obtain ⟨c, hc, hid⟩ := stage_trace_ids p (f + 1) t hdeep ev hev
      apply head_not_in_descIds hnd
      rw [hsa, ← hida]
      exact List.mem_flatMap.mpr ⟨c, hc, by simpa using hid⟩
    | child hc hsub' =>
      rename_i c
      obtain ⟨g, rfl⟩ := fuel_pos_of_child hdeep hc
      have hdc : deepEnough (g + 1) c = true := deepEnough_child hdeep hc
      have hndtail := nodup_idsF_tail hnd
      have hndc : (idsF (g + 1) c).Nodup := nodup_flatMap_part hndtail hc
      have hain : a ∈ idsF (g + 1) c := hsa ▸ ids_complete hdc hsub'
      obtain ⟨cc, hcc, hsubcc⟩ := exists_child_sub hsub' hc0 hsubd
      have hdtail : d ∈ c.children.flatMap (idsF g) :=
        hsdid ▸ mem_tail_of_child_sub hdc hcc hsubcc
      have hdin : d ∈ idsF (g + 1) c := by
        rw [idsF]
        exact List.mem_cons_of_mem _ hdtail
      have hdnec : d ≠ c.info.id := ne_root_of_tail hndc hdtail
      have hxids : ∀ x ∈ t.children, ∀ ev ∈ (stageStep p (g + 1) x).2,
          ev.id ∈ idsF (g + 1) x := by
        intro x hx ev hev
        exact stage_step_ids (deepEnough_child hdeep hx) ev hev
      by_cases hvc : visDir c = true
      · -- c is scanned: its block holds every a- and d-event, ordered
        have hcvis : c ∈ visibleDirChildren t.children :=
          mem_sortByKey.mpr (List.mem_filter.mpr ⟨hc, hvc⟩)
        obtain ⟨u, v, hk⟩ := List.append_of_mem hcvis
        have hndvis : ((visibleDirChildren t.children).flatMap
            (idsF (g + 1))).Nodup := nodup_flatMap_vis hndtail
        rw [hk] at hndvis
        have hdis := nodup_flatMap_disjoint hndvis
        have hmemt : ∀ x, x ∈ u ∨ x ∈ v → x ∈ t.children := by
          intro x hx
          have hxv : x ∈ visibleDirChildren t.children := by
            rw [hk]
            rcases hx with h | h
            · exact List.mem_append_left _ h
            · exact List.mem_append_right _ (List.mem_cons_of_mem _ h)
          exact (mem_visibleDirChildren hxv).1
        have huNo : ∀ z ∈ idsF (g + 1) c, ∀ x ∈ u,
            NoId (stageStep p (g + 1) x).2 z := by
          intro z hz x hxu ev hev heq
          have hevid := hxids x (hmemt x (Or.inl hxu)) ev hev
          exact hdis.1 x hxu ev.id hevid (heq ▸ hz)
        have hvNo : ∀ z ∈ idsF (g + 1) c, ∀ x ∈ v,
            NoId (stageStep p (g + 1) x).2 z := by
          intro z hz x hxv ev hev heq
          have hevid := hxids x (hmemt x (Or.inr hxv)) ev hev
          exact hdis.2 x hxv z hz (heq ▸ hevid)
        rw [stageDirsF_succ, hk, List.flatMap_append, List.flatMap_cons]
        refine precedes_confined
          (X := u.flatMap (fun x => (stageStep p (g + 1) x).2))
          (B := (stageStep p (g + 1) c).2)
          (Y := v.flatMap (fun x => (stageStep p (g + 1) x).2))
          ?_ ?_ ?_ ?_ ?_ ?_
        · dsimp only
          simp only [List.append_assoc]
        · -- no d in X
          intro ev hev
          obtain ⟨x, hxu, hevx⟩ := List.mem_flatMap.mp hev
          exact huNo d hdin x hxu ev hevx
        · -- no a in X
          intro ev hev
          obtain ⟨x, hxu, hevx⟩ := List.mem_flatMap.mp hev
          exact huNo a hain x hxu ev hevx
        · -- no d in Y
          intro ev hev
          obtain ⟨x, hxv, hevx⟩ := List.mem_flatMap.mp hev
          exact hvNo d hdin x hxv ev hevx
        · -- no a in Y
          intro ev hev
          obtain ⟨x, hxv, hevx⟩ := List.mem_flatMap.mp hev
          exact hvNo a hain x hxv ev hevx
        · -- inside c's block: inner walk first, level rename of c last
          rw [stage_block_split]
          by_cases hac : a = c.info.id
          · -- a is c itself: every d-event sits in the inner walk, every
            -- a-event is the trailing level rename
            refine precedes_of_split (X := (stageDirsF p (g + 1) c).2)
              (Y := match p c.info.id with
                | some tmp => [⟨c.info.id, c.info.name, tmp⟩]
                | none => ([] : List Ev)) rfl ?_ ?_
            · -- no a in the inner walk
              intro ev hev heq
              have hevt := stage_inner_ids hdc ev hev
              exact ne_root_of_tail hndc hevt (heq.trans hac)
            · -- no d in the level part
              intro ev hev heq
              cases hp : p c.info.id with
              | none =>
                rw [hp] at hev
                cases hev
              | some tmp =>
                rw [hp] at hev
                rcases List.mem_singleton.mp hev with rfl
                exact hdnec heq.symm
          · -- a strictly inside c: the induction orders the inner walk,
            -- the level rename touches neither a nor d
            refine precedes_confined (X := ([] : List Ev))
              (B := (stageDirsF p (g + 1) c).2)
              (Y := match p c.info.id with
                | some tmp => [⟨c.info.id, c.info.name, tmp⟩]
                | none => ([] : List Ev)) rfl ?_ ?_ ?_ ?_ ?_
            · intro ev hev
              cases hev
            · intro ev hev
              cases hev
            · -- no d in the level part
              intro ev hev heq
              cases hp : p c.info.id with
              | none =>
                rw [hp] at hev
                cases hev
              | some tmp =>
                rw [hp] at hev
                rcases List.mem_singleton.mp hev with rfl
                exact hdnec heq.symm
            · -- no a in the level part
              intro ev hev heq
              cases hp : p c.info.id with
              | none =>
                rw [hp] at hev
                cases hev
              | some tmp =>
                rw [hp] at hev
                rcases List.mem_singleton.mp hev with rfl
                exact hac heq.symm
            · exact ih c a d hdc hndc ⟨s, hsub', hsa, c0, hc0, sd, hsubd, hsdid⟩
      · -- c is filtered out: the walk never touches c's subtree, so no
        -- event carries a at all
        refine precedes_of_noId_right ?_
        intro ev hev hida
        rw [stageDirsF_succ] at hev
        obtain ⟨x, hxvis, hevx⟩ := List.mem_flatMap.mp hev
        obtain ⟨hxch, hxv⟩ := mem_visibleDirChildren hxvis
        have hxne : x ≠ c := fun he => hvc (he ▸ hxv)
        obtain ⟨u, v, hk⟩ := List.append_of_mem hc
        rw [hk] at hndtail
        have hdis := nodup_flatMap_disjoint hndtail
        have hevid : ev.id ∈ idsF (g + 1) x := hxids x hxch ev hevx
        have hax : a ∈ idsF (g + 1) x := hida ▸ hevid
        have hxuv : x ∈ u ∨ x ∈ v := by
          rw [hk] at hxch
          rcases List.mem_append.mp hxch with h | h
          · exact Or.inl h
          · rcases List.mem_cons.mp h with he | h'
            · exact absurd he hxne
            · exact Or.inr h'
        rcases hxuv with hxu | hxv'
        · exact hdis.1 x hxu a hax hain
        · exact hdis.2 x hxv' a hain hax

/-!
## Claim C2
-/

/-- A concrete three-directory tree: `1 Alpha` (id 1) holds `5 Sub`
(id 3), `2 Beta` (id 2) is its sibling. -/
def c2Sub : FsT := .node ⟨3, "5 Sub".toList, true, false, false⟩ []

def c2Alpha : FsT :=
  .node ⟨1, "1 Alpha".toList, true, false, false⟩ [c2Sub]

def c2Beta : FsT := .node ⟨2, "2 Beta".toList, true, false, false⟩ []

def c2Tree : FsT := .node ⟨0, "d".toList, true, false, false⟩ [c2Alpha, c2Beta]

/-- In `c2Tree` node 1 is a strict ancestor of node 3. -/
theorem c2Below : StrictBelow c2Tree 1 3 :=
  ⟨c2Alpha, .child (List.mem_cons_self _ _) (.refl _), rfl,
   c2Sub, List.mem_cons_self _ _, c2Sub, .refl _, rfl⟩

/-- The temporary names the staging walk of the witness uses. -/
def c2Planned : Nat → Option PyStr := fun n =>
  if n = 1 then some "1 Alpha.renum_tmp_aaaabbbbcccc".toList
  else if n = 3 then some "5 Sub.renum_tmp_ddddeeeeffff".toList
  else none

def c2Plans : List DirPlanM :=
  [⟨1, 0, "1 Alpha".toList, "Alpha".toList, "001 Alpha".toList,
    "1 Alpha.renum_tmp_aaaabbbbcccc".toList⟩,
   ⟨3, 1, "5 Sub".toList, "Sub".toList, "001 Sub".toList,
    "5 Sub.renum_tmp_ddddeeeeffff".toList⟩]

/-- **C2.**  In recursive folder mode, for every pair of plan items where
one directory is a strict ancestor of the other, the ancestor's staging
rename (source to temporary name) is executed strictly after every
staging rename of the descendant, and the ancestor's commit rename
(temporary to final name) is executed strictly before every commit
rename of the descendant — `stage_dirs` walks depth-first and renames a
directory after its subtree, `commit_dirs` renames a directory before
re-scanning and descending into it.  Hypotheses: the fuel bound covers
the tree and node identifiers (absolute paths) are unique. -/
theorem claim_C2_recursive_order (p : Nat → Option PyStr)
    (dplans : List DirPlanM) (f : Nat) (t : FsT) (a d : Nat)
    (hdeep : deepEnough f t = true) (hnd : (idsF f t).Nodup)
    (hbelow : StrictBelow t a d) :
    Precedes (stageDirsF p f t).2 d a ∧
      Precedes (commitDirsF dplans f t).2 a d :=
  ⟨stage_precedes p f t a d hdeep hnd hbelow,
   scan_precedes _ f t a d hdeep hnd hbelow⟩

/-- **C2 — witness.**  The concrete tree `c2Tree` satisfies every
hypothesis at the ancestor/descendant pair (1, 3), and the ordering
conclusions hold for its staging and commit traces. -/
theorem claim_C2_recursive_order_witness :
    deepEnough 5 c2Tree = true ∧ (idsF 5 c2Tree).Nodup ∧
      StrictBelow c2Tree 1 3 ∧
      (Precedes (stageDirsF c2Planned 5 c2Tree).2 3 1 ∧
        Precedes (commitDirsF c2Plans 5 c2Tree).2 1 3) :=
  ⟨by decide, by decide, c2Below,
   claim_C2_recursive_order c2Planned c2Plans 5 c2Tree 1 3 (by decide)
     (by decide) c2Below⟩

/-!
## Claim C6
-/

def c6Or : Nat → PyStr := fun _ => "abcdef123456".toList

def c6Root : FsT :=
  .node ⟨0, "d".toList, true, false, false⟩
    [.node ⟨1, "1 A".toList, true, false, false⟩ []]

/-- **C6 — counterexample.**  A dry-run invocation (`dry_run = true`,
`go = false`) on a lock-free directory still creates the lock marker
directory: `acquire_lock` runs *before* the dry-run check in
`run_folders`, so the trace opens with the `mkdir` of the lock and closes
with its removal. -/
theorem claim_C6_counterexample :
    runFoldersTrace 5 c6Root 1 1 3 false true false c6Or =
      ([Fx.mkdirLock, Fx.writePid, Fx.hideLock, Fx.rmPid, Fx.rmdirLock],
        .ok 0) := by
  rfl

/-- **C6 — amended claim.**  An invocation without `--go` (or with
`--dry-run`) performs no rename whatsoever, but it does NOT leave the
filesystem untouched: `run_folders` acquires the lock before testing the
dry-run flag, so the lock marker directory is created, a pid file is
written, the directory is marked hidden, and the `finally` block removes
both again.  The whole trace is either empty (a pre-existing lock aborts
the run before any effect) or exactly the five lock-handling effects. -/
theorem claim_C6_dry_run (fuel : Nat) (t : FsT) (start step : Int)
    (width : Nat) (recursive dryRun go : Bool) (tmpOr : Nat → PyStr)
    (hdry : dryRun = true ∨ go = false) :
    (∀ ev ∈ (runFoldersTrace fuel t start step width recursive dryRun go
        tmpOr).1, ∀ i s d, ev ≠ Fx.rename i s d) ∧
      ((runFoldersTrace fuel t start step width recursive dryRun go
          tmpOr).1 = [] ∨
        (runFoldersTrace fuel t start step width recursive dryRun go
            tmpOr).1 =
          [Fx.mkdirLock, Fx.writePid, Fx.hideLock, Fx.rmPid,
            Fx.rmdirLock]) := by
  have hcond : dryRun = true ∨ ¬ (go = true) := by
    rcases hdry with h | h
    · exact Or.inl h
    · exact Or.inr (by simp [h])
  have htr : (runFoldersTrace fuel t start step width recursive dryRun go
      tmpOr).1 = [] ∨
      (runFoldersTrace fuel t start step width recursive dryRun go
        tmpOr).1 =
        [Fx.mkdirLock, Fx.writePid, Fx.hideLock, Fx.rmPid, Fx.rmdirLock] := by
    rw [runFoldersTrace]
    by_cases hlock :
        (t.children.any (fun c => c.info.name = lockDirName)) = true
    · rw [if_pos hlock]
      exact Or.inl rfl
    · rw [if_neg hlock]
      cases hplan : planFoldersTree fuel t recursive start step width tmpOr with
      | error e => exact Or.inr rfl
      | ok pr =>
        obtain ⟨plans, ck⟩ := pr
        dsimp only
        rw [if_pos hcond]
        exact Or.inr rfl
  refine ⟨?_, htr⟩
  intro ev hev i s d he
  subst he
  rcases htr with h | h
  · rw [h] at hev
    cases hev
  · rw [h] at hev
    simp at hev

/-- **C6 — witness.**  The dry-run invocation on the concrete tree
`c6Root` satisfies the hypothesis and both conclusions: no rename effect
occurs and the trace is exactly the lock acquisition and release. -/
theorem claim_C6_dry_run_witness :
    ((true : Bool) = true ∨ (false : Bool) = false) ∧
      ((∀ ev ∈ (runFoldersTrace 5 c6Root 1 1 3 false true false c6Or).1,
          ∀ i s d, ev ≠ Fx.rename i s d) ∧
        ((runFoldersTrace 5 c6Root 1 1 3 false true false c6Or).1 = [] ∨
          (runFoldersTrace 5 c6Root 1 1 3 false true false c6Or).1 =
            [Fx.mkdirLock, Fx.writePid, Fx.hideLock, Fx.rmPid,
              Fx.rmdirLock])) :=
  ⟨Or.inl rfl,
   claim_C6_dry_run 5 c6Root 1 1 3 false true false c6Or (Or.inl rfl)⟩

/-!
## Claim C7
-/

/-- **C7.**  For every scanned item list and options, the `i`-th item in
scan order is numbered `start + i * step`: whenever the target computed
with that number differs from the current name, the accepted plan holds
an entry for exactly that item carrying that target; the `checked`
counter equals the number of visited items (it increments once per
visited node, unchanged nodes included — and so does the running
`number`, which is why the position `i` alone determines the assigned
index); and in recursive mode the scanned items are exactly the preorder
enumeration of the tree. -/
theorem claim_C7_numbering (listingOf : Nat → List Ent)
    (items : List (Nat × Nat × PyStr)) (start step : Int) (width : Nat)
    (tmpOr : Nat → PyStr) (plans : List DirPlanM) (checked : Nat)
    (hok : planFolders listingOf items start step width tmpOr =
      .ok (plans, checked)) :
    checked = items.length ∧
      (∀ i (h : i < items.length),
        foldersTarget width (start + i * step) (items.get ⟨i, h⟩).2.2 ≠
          (items.get ⟨i, h⟩).2.2 →
        ∃ dp ∈ plans,
          dp.origId = (items.get ⟨i, h⟩).2.1 ∧
          dp.parentId = (items.get ⟨i, h⟩).1 ∧
          dp.oldBase = (items.get ⟨i, h⟩).2.2 ∧
          dp.finalBase =
            foldersTarget width (start + i * step) (items.get ⟨i, h⟩).2.2) ∧
      (∀ (fuel : Nat) (t : FsT),
        planFoldersTree fuel t true start step width tmpOr =
          planFolders (treeListingOf fuel t) (preorderItemsF fuel t)
            start step width tmpOr) := by
  rw [planFolders] at hok
  rcases h1 : planFoldersLoop width step tmpOr items start 0 with e | ps
  · rw [h1] at hok
    cases hok
  · rw [h1] at hok
    dsimp only at hok
    rcases h2 : checkAllParents listingOf ps (parentsInOrder ps) with e | u
    · rw [h2] at hok
      cases hok
    · rw [h2] at hok
      dsimp only at hok
      cases hok
      exact ⟨rfl,
        fun i h hch => planFoldersLoop_assigns items start 0 plans h1 i h hch,
        fun fuel t => rfl⟩

def c7Or : Nat → PyStr := fun _ => "0123456789ab".toList

def c7L : Nat → List Ent := fun _ => []

def c7Items : List (Nat × Nat × PyStr) :=
  [(0, 1, "1 Alpha".toList), (0, 2, "2 Beta".toList)]

def c7Plans : List DirPlanM :=
  [⟨1, 0, "1 Alpha".toList, "Alpha".toList, "001 Alpha".toList,
    "1 Alpha.renum_tmp_0123456789ab".toList⟩,
   ⟨2, 0, "2 Beta".toList, "Beta".toList, "002 Beta".toList,
    "2 Beta.renum_tmp_0123456789ab".toList⟩]

/-- **C7 — witness.**  On two concrete sibling items at `start = 1`,
`step = 1`, `width = 3` the planner returns targets `001 Alpha` and
`002 Beta` and counts both items. -/
theorem claim_C7_numbering_witness :
    planFolders c7L c7Items 1 1 3 c7Or = .ok (c7Plans, 2) ∧
      (2 = c7Items.length ∧
        (∀ i (h : i < c7Items.length),
          foldersTarget 3 (1 + i * 1) (c7Items.get ⟨i, h⟩).2.2 ≠
            (c7Items.get ⟨i, h⟩).2.2 →
          ∃ dp ∈ c7Plans,
            dp.origId = (c7Items.get ⟨i, h⟩).2.1 ∧
            dp.parentId = (c7Items.get ⟨i, h⟩).1 ∧
            dp.oldBase = (c7Items.get ⟨i, h⟩).2.2 ∧
            dp.finalBase =
              foldersTarget 3 (1 + i * 1) (c7Items.get ⟨i, h⟩).2.2) ∧
        (∀ (fuel : Nat) (t : FsT),
          planFoldersTree fuel t true 1 1 3 c7Or =
            planFolders (treeListingOf fuel t) (preorderItemsF fuel t)
              1 1 3 c7Or)) :=
  ⟨by rfl, claim_C7_numbering c7L c7Items 1 1 3 c7Or c7Plans 2 (by rfl)⟩

/-!
## Claim C10
-/

theorem visDir_ne_lock {c : FsT} (h : visDir c = true) :
    c.info.name ≠ lockDirName := by
  simp only [visDir, Bool.and_eq_true, decide_eq_true_eq] at h
  exact h.2.2.1

theorem commitOk_ne_lock {c : FsT} (h : commitOk c = true) :
    c.info.name ≠ lockDirName := by
  simp only [commitOk, Bool.and_eq_true, decide_eq_true_eq] at h
  exact h.2.2

theorem commitPass1_src {m : List (PyStr × PyStr)} {c : FsT} {ev : Ev}
    (h : ev ∈ (commitPass1 m c).2) :
    ev.src = c.info.name ∧ commitOk c = true := by
  rw [commitPass1] at h
  by_cases hc : commitOk c = true
  · rw [if_pos hc] at h
    cases hl : m.lookup c.info.name with
    | none =>
      rw [hl] at h
      cases h
    | some dst =>
      rw [hl] at h
      rcases List.mem_singleton.mp h with rfl
      exact ⟨rfl, hc⟩
  · rw [if_neg hc] at h
    cases h

theorem iterVisibleDirs_ne_lock {listing : List Ent} {e : Ent}
    (h : e ∈ iterVisibleDirs listing) : e.name ≠ lockDirName := by
  have hm := (List.mem_filter.mp (mem_sortByKey.mp h)).2
  simp only [Bool.and_eq_true, decide_eq_true_eq] at hm
  exact hm.2.2.1

theorem conflictExisting_lock_cons (listing : List Ent) (e : Ent)
    (h : e.name = lockDirName) :
    conflictExisting (e :: listing) = conflictExisting listing := by
  simp [conflictExisting, List.filter_cons, h]

theorem scan_src_ne_lock (m : List (PyStr × PyStr)) :
    ∀ (f : Nat) (t : FsT), ∀ ev ∈ (scanRenameF m f t).2,
      ev.src ≠ lockDirName := by
  intro f
  induction f with
  | zero =>
    intro t ev h
    rw [scanRenameF] at h
    cases h
  | succ f ih =>
    intro t ev hev
    rw [scanRenameF_succ] at hev
    rcases List.mem_append.mp hev with h1 | h2
    · obtain ⟨c, hc, hevc⟩ := List.mem_flatMap.mp h1
      obtain ⟨hsrc, hok⟩ := commitPass1_src hevc
      rw [hsrc]
      exact commitOk_ne_lock hok
    · obtain ⟨c1, hc1, hevc⟩ := List.mem_flatMap.mp h2
      rw [scanStep2] at hevc
      by_cases hok : commitOk c1 = true
      · rw [if_pos hok] at hevc
        exact ih c1 ev hevc
      · rw [if_neg hok] at hevc
        cases hevc

theorem stage_src_ne_lock (p : Nat → Option PyStr) :
    ∀ (f : Nat) (t : FsT), ∀ ev ∈ (stageDirsF p f t).2,
      ev.src ≠ lockDirName := by
  intro f
  induction f with
  | zero =>
    intro t ev h
    rw [stageDirsF] at h
    cases h
  | succ f ih =>
    intro t ev hev
    rw [stageDirsF_succ] at hev
    obtain ⟨c, hcv, hevc⟩ := List.mem_flatMap.mp hev
    obtain ⟨hc, hvis⟩ := mem_visibleDirChildren hcv
    rw [stage_block_split] at hevc
    rcases List.mem_append.mp hevc with hin | hlvl
    · exact ih c ev hin
    · cases hp : p c.info.id with
      | none =>
        rw [hp] at hlvl
        cases hlvl
      | some tmp =>
        rw [hp] at hlvl
        rcases List.mem_singleton.mp hlvl with rfl
        exact visDir_ne_lock hvis

theorem preorderItemsF_base_ne_lock :
    ∀ (fuel : Nat) (t : FsT), ∀ it ∈ preorderItemsF fuel t,
      it.2.2 ≠ lockDirName := by
  intro fuel
  induction fuel with
  | zero =>
    intro t it h
    rw [preorderItemsF] at h
    cases h
  | succ f ih =>
    intro t it h
    rw [preorderItemsF] at h
    obtain ⟨c, hcv, hit⟩ := List.mem_flatMap.mp h
    obtain ⟨hc, hvis⟩ := mem_visibleDirChildren hcv
    rcases List.mem_cons.mp hit with rfl | h'
    · exact visDir_ne_lock hvis
    · exact ih c it h'

theorem planFoldersTree_oldBase_ne_lock {fuel : Nat} {t : FsT}
    {start step : Int} {width : Nat} {tmpOr : Nat → PyStr}
    {plans : List DirPlanM} {checked : Nat}
    (hok : planFoldersTree fuel t true start step width tmpOr =
      .ok (plans, checked)) :
    ∀ dp ∈ plans, dp.oldBase ≠ lockDirName := by
  intro dp hdp
  have hok' : planFolders (treeListingOf fuel t) (preorderItemsF fuel t)
      start step width tmpOr = .ok (plans, checked) := hok
  rw [planFolders] at hok'
  rcases h1 : planFoldersLoop width step tmpOr (preorderItemsF fuel t)
      start 0 with e | ps
  · rw [h1] at hok'
    cases hok'
  · rw [h1] at hok'
    dsimp only at hok'
    rcases h2 : checkAllParents (treeListingOf fuel t) ps
        (parentsInOrder ps) with e | u
    · rw [h2] at hok'
      cases hok'
    · rw [h2] at hok'
      dsimp only at hok'
      cases hok'
      have hsub := planFoldersLoop_sublist h1
      have hmem : (dp.parentId, dp.oldBase) ∈
          (preorderItemsF fuel t).map (fun it => (it.1, it.2.2)) :=
        hsub.subset (List.mem_map.mpr ⟨dp, hdp, rfl⟩)
      obtain ⟨it, hit, heq⟩ := List.mem_map.mp hmem
      have hbase := preorderItemsF_base_ne_lock fuel t it hit
      have hb : it.2.2 = dp.oldBase := congrArg Prod.snd heq
      rw [← hb]
      exact hbase

/-- **C10.**  The lock marker name `.renum.lock` is excluded by literal
name everywhere: the directory scanner never yields it, the `existing`
listing of the conflict check ignores an entry so named (hidden or not),
neither a `stage_dirs` walk nor any `commit_dirs`/`rollback_dirs` pass
(both are `scanRenameF` instances) ever renames an entry with that
source name, and no accepted recursive folder plan contains an item
whose old name is the lock name. -/
theorem claim_C10_lock_excluded :
    (∀ (listing : List Ent) (e : Ent), e ∈ iterVisibleDirs listing →
        e.name ≠ lockDirName) ∧
      (∀ (listing : List Ent) (e : Ent), e.name = lockDirName →
        conflictExisting (e :: listing) = conflictExisting listing) ∧
      (∀ (m : List (PyStr × PyStr)) (f : Nat) (t : FsT),
        ∀ ev ∈ (scanRenameF m f t).2, ev.src ≠ lockDirName) ∧
      (∀ (p : Nat → Option PyStr) (f : Nat) (t : FsT),
        ∀ ev ∈ (stageDirsF p f t).2, ev.src ≠ lockDirName) ∧
      (∀ (fuel : Nat) (t : FsT) (start step : Int) (width : Nat)
          (tmpOr : Nat → PyStr) (plans : List DirPlanM) (checked : Nat),
        planFoldersTree fuel t true start step width tmpOr =
          .ok (plans, checked) →
        ∀ dp ∈ plans, dp.oldBase ≠ lockDirName) :=
  ⟨fun _ _ h => iterVisibleDirs_ne_lock h,
   conflictExisting_lock_cons,
   scan_src_ne_lock,
   stage_src_ne_lock,
   fun _ _ _ _ _ _ _ _ hok => planFoldersTree_oldBase_ne_lock hok⟩

def c10Lock : Ent := ⟨lockDirName, false, false, false⟩

def c10Vis : Ent := ⟨"1 A".toList, false, false, false⟩

/-- **C10 — witness.**  A concrete listing: prepending an entry literally
named `.renum.lock` (not even hidden) leaves the conflict check's
`existing` key set unchanged. -/
theorem claim_C10_lock_excluded_witness :
    c10Lock.name = lockDirName ∧
      conflictExisting [c10Lock, c10Vis] = conflictExisting [c10Vis] :=
  ⟨rfl, claim_C10_lock_excluded.2.1 [c10Vis] c10Lock rfl⟩

end Renum
